import Mathlib

/-!
# Verification of the rag-suite retrieval and generation pipeline

Shallow embedding of the pure cores of the `rag-suite` services:
text normalization (`backend/src/tools/normalize_text.py`), the hybrid
dense+BM25 ranker (`backend/src/tools/hybrid_ranker.py`), contextual header
composition (`backend/src/tools/contextual_header_generator.py`), agentic
chunk validation and mode dispatch (`backend_ingestion/src/tools/agentic_chunker.py`,
`backend/src/services/ingestion_service.py`), citation extraction
(`backend_rag/src/tools/citation_parser.py`), the reranked retrieval and
SSE chat services (`backend_rag/src/reranked/*.py`), and the operation
manager (`backend_ingestion/src/services/operation_manager.py`).

Strings are modelled as `List Char`; Python `dict`s as association lists
with last-write-wins update; floats as `ℚ` (with `math.log` abstracted as a
function parameter where it occurs).
-/

namespace RagSuite

/-- Python `str.isspace`/regex `\s` whitespace characters (ASCII controls,
space, and the Unicode space/separator characters Python treats as
whitespace). -/
def pyIsSpace (c : Char) : Bool :=
  c = ' ' || c = '\t' || c = '\n' || c = '\r' || c = '\x0b' || c = '\x0c' ||
  c = '\x1c' || c = '\x1d' || c = '\x1e' || c = '\x1f' || c = '\x85' ||
  c = '\xa0' || c = ' ' ||
  (' ' ≤ c && c ≤ ' ') ||
  c = ' ' || c = ' ' || c = ' ' || c = ' ' || c = '　'

/-- Whitespace matched by the regex class `[^\S\n]` (any whitespace except
newline). -/
def isNonNlWs (c : Char) : Bool :=
  pyIsSpace c && c ≠ '\n'

/-- Characters counted as `\w` by the regexes we embed (ASCII model). -/
def isWordChar (c : Char) : Bool :=
  c.isAlpha || c.isDigit || c = '_'

/-- Drop trailing characters satisfying `p` (helper for `pyStrip`). -/
def dropRightWhile (p : Char → Bool) (l : List Char) : List Char :=
  (l.reverse.dropWhile p).reverse

/-- Python `str.strip()` with no argument: remove leading and trailing
whitespace. -/
def pyStrip (l : List Char) : List Char :=
  dropRightWhile pyIsSpace (l.dropWhile pyIsSpace)

/-- Split a character list at every occurrence of `sep` (Python
`str.split(sep)` for a one-character separator: `n` separators yield
`n + 1` fields). -/
def splitChar (sep : Char) : List Char → List (List Char)
  | [] => [[]]
  | c :: rest =>
    let tail := splitChar sep rest
    if c = sep then
      [] :: tail
    else
      match tail with
      | [] => [[c]]
      | line :: more => (c :: line) :: more

/-- Join fields with a one-character separator (Python `sep.join(...)`). -/
def joinChar (sep : Char) : List (List Char) → List Char
  | [] => []
  | [l] => l
  | l :: rest => l ++ sep :: joinChar sep rest

/-- Association-list lookup standing in for Python `dict.get`. -/
def assocGet {α : Type} (l : List (String × α)) (key : String) : Option α :=
  match l.find? (fun kv => kv.1 = key) with
  | some kv => some kv.2
  | none => none

/-- Association-list update standing in for Python `dict[key] = value`
(replaces an existing binding, else appends). -/
def assocSet {α : Type} (l : List (String × α)) (key : String) (value : α) :
    List (String × α) :=
  if (l.find? (fun kv => kv.1 = key)).isSome then
    l.map (fun kv => if kv.1 = key then (key, value) else kv)
  else
    l ++ [(key, value)]

/-! ## Operation manager (`backend_ingestion/src/services/operation_manager.py`)

The registry maps a client-provided operation id to an `asyncio.Event`;
we model each event by its flag (`is_set`). -/

/-- The `OperationManager` registry state: operation id -> cancellation
flag. -/
structure OperationRegistry where
  events : List (String × Bool)
deriving Repr, DecidableEq

namespace OperationManager

/-- `OperationManager.register`: store a fresh (unset) event under the id. -/
def register (st : OperationRegistry) (operationId : String) : OperationRegistry :=
  ⟨assocSet st.events operationId false⟩

/-- `OperationManager.cancel`: set the event if the id is currently active,
returning whether a cancellation was signalled, together with the new
registry state. -/
def cancel (st : OperationRegistry) (operationId : String) :
    Bool × OperationRegistry :=
  match assocGet st.events operationId with
  | none => (false, st)
  | some _ => (true, ⟨assocSet st.events operationId true⟩)

/-- `OperationManager.release`: drop the id from active tracking. -/
def release (st : OperationRegistry) (operationId : String) : OperationRegistry :=
  ⟨st.events.filter (fun kv => kv.1 ≠ operationId)⟩

end OperationManager

/-! ## Citation parser (`backend_rag/src/tools/citation_parser.py`)

`CitationParser._citation_pattern = re.compile(r"[\[【](S\d+)[\]】]")` and
`extract` deduplicates `findall` matches in first-seen order, dropping ids
outside the available source set. -/

/-- Attempt to match `[\[【](S\d+)[\]】]` at the head of the list; on success
return the captured group (`S` + digits) and the rest of the input after
the match. -/
def citationMatchHere : List Char → Option (List Char × List Char)
  | openBr :: s :: rest =>
    let digits := rest.takeWhile Char.isDigit
    let after := rest.dropWhile Char.isDigit
    if (openBr = '[' ∨ openBr = '【') ∧ s = 'S' ∧ digits ≠ [] ∧
        (after.head? = some ']' ∨ after.head? = some '】') then
      some ('S' :: digits, after.tail)
    else
      none
  | _ => none

/-- When `citationMatchHere` succeeds, the remaining input is strictly
shorter (at least the two brackets, the `S`, and one digit are consumed).
Needed by the termination arguments of the scanners below. -/
theorem citationMatchHere_length_lt {l m rest : List Char}
    (h : citationMatchHere l = some (m, rest)) : rest.length < l.length := by
  match l with
  | [] => simp [citationMatchHere] at h
  | [c] => simp [citationMatchHere] at h
  | openBr :: s :: tail =>
    simp only [citationMatchHere] at h
    split at h
    · rename_i hcond
      have hne : tail.dropWhile Char.isDigit ≠ [] := by
        rcases hcond.2.2.2 with hh | hh <;>
          exact fun he => by simp [he] at hh
      have hrest : rest = (tail.dropWhile Char.isDigit).tail := by
        have h2 := h
        simp only [Option.some.injEq, Prod.mk.injEq] at h2
        exact h2.2.symm
      have hlen : (tail.dropWhile Char.isDigit).length ≤ tail.length :=
        (List.dropWhile_sublist _).length_le
      have htail : (tail.dropWhile Char.isDigit).tail.length <
          (tail.dropWhile Char.isDigit).length := by
        cases he : tail.dropWhile Char.isDigit with
        | nil => exact absurd he hne
        | cons a as => simp
      rw [hrest]
      simp only [List.length_cons]
      omega
    · exact absurd h (by simp)

/-- Scanner for `re.findall` on the citation pattern, structurally
recursive on a fuel argument (one unit per input position; any fuel
`≥ l.length` yields the scan's value, see `findCitationsAux_fuel_irrel`). -/
def findCitationsAux : Nat → List Char → List (List Char)
  | _, [] => []
  | 0, _ :: _ => []
  | fuel + 1, c :: rest =>
    match citationMatchHere (c :: rest) with
    | some (m, after) => m :: findCitationsAux fuel after
    | none => findCitationsAux fuel rest

/-- `re.findall` for the citation pattern: scan left to right, trying a
match at every position, and resume after each match. -/
def findCitations (l : List Char) : List (List Char) :=
  findCitationsAux l.length l

/-- `CitationParser.extract`: deduplicated citations in first-seen order,
keeping only ids present in the available source set. -/
def citationExtract (answer : List Char) (available : List (List Char)) :
    List (List Char) :=
  (findCitations answer).foldl
    (fun ordered m =>
      if m ∈ ordered ∨ m ∉ available then ordered else ordered ++ [m])
    []

/-- Keep the first occurrence of every element, in first-seen order. -/
def firstSeenDedup (l : List (List Char)) : List (List Char) :=
  l.foldl (fun acc m => if m ∈ acc then acc else acc ++ [m]) []

/-- First-seen-order deduplication combined with a membership filter,
written from the specification's words ("deduplicate in first-seen order;
drop ids not in the active source set"). -/
def firstSeenFilteredDedup (ms : List (List Char))
    (available : List (List Char)) : List (List Char) :=
  firstSeenDedup (ms.filter (fun m => m ∈ available))

/-! ## Inline source tag stripping
(`RagRerankedChatService._strip_inline_source_tags` in
`backend_rag/src/reranked/chat_service.py`, identical in
`backend_rag/src/services/rag_chat_service.py`)

`_inline_source_tag_pattern = re.compile(r"\s*[\[【](S\d+)[\]】]\s*")`,
substituted by a single space; then each line of the result has runs of
spaces/tabs collapsed, is stripped, empty lines are dropped unless the
result is a single line, and the joined text is stripped. -/

/-- Space or tab (the regex class `[ \t]`). -/
def isSpaceTab (c : Char) : Bool :=
  c = ' ' || c = '\t'

/-- Scanner for `re.subn(r"<class>+", rep, text)` as a one-character
state machine: `inRun` records whether the previous character belonged to
the current run (a run is emitted and counted at its first character). -/
def collapseRunsAux (p : Char → Bool) (rep : Char) :
    Bool → List Char → List Char × Nat
  | _, [] => ([], 0)
  | inRun, c :: rest =>
    if p c then
      let next := collapseRunsAux p rep true rest
      if inRun then next else (rep :: next.1, next.2 + 1)
    else
      let next := collapseRunsAux p rep false rest
      (c :: next.1, next.2)

/-- Replace every maximal run of characters satisfying `p` by the single
character `rep`, counting the runs (the semantics of
`re.subn(r"<class>+", rep, text)`). -/
def collapseRunsCount (p : Char → Bool) (rep : Char) (l : List Char) :
    List Char × Nat :=
  collapseRunsAux p rep false l

/-- `re.sub(r"<class>+", rep, text)` without the count. -/
def collapseRuns (p : Char → Bool) (rep : Char) (l : List Char) : List Char :=
  (collapseRunsCount p rep l).1

/-- Attempt to match `\s*[\[【]S\d+[\]】]\s*` at the head of the input; on
success return the input remaining after the (greedy) match. -/
def tagMatchHere (l : List Char) : Option (List Char) :=
  match citationMatchHere (l.dropWhile pyIsSpace) with
  | some (_, tail) => some (tail.dropWhile pyIsSpace)
  | none => none

/-- Scanner for `re.sub` on the inline source tag pattern, structurally
recursive on a fuel argument (one unit per input position). -/
def subTagsAux : Nat → List Char → List Char
  | _, [] => []
  | 0, c :: rest => c :: rest
  | fuel + 1, c :: rest =>
    match tagMatchHere (c :: rest) with
    | some after => ' ' :: subTagsAux fuel after
    | none => c :: subTagsAux fuel rest

/-- `re.sub` for the inline source tag pattern with replacement `" "`:
scan left to right, replacing every match with one space (fuelled scan;
any fuel `≥ l.length` yields the scan's value). -/
def subTags (l : List Char) : List Char :=
  subTagsAux l.length l

/-- Line-boundary characters of Python `str.splitlines`. -/
def isLineBreak (c : Char) : Bool :=
  c = '\n' || c = '\r' || c = '\u000b' || c = '\u000c' ||
  c = '\u001c' || c = '\u001d' || c = '\u001e' || c = '\u0085' ||
  c = ' ' || c = ' '

/-- Fuelled scanner for `str.splitlines` (one unit of fuel per produced
line). -/
def splitlinesAux : Nat → List Char → List (List Char)
  | _, [] => []
  | 0, _ :: _ => []
  | fuel + 1, l =>
    let line := l.takeWhile (fun c => !isLineBreak c)
    match l.dropWhile (fun c => !isLineBreak c) with
    | [] => [line]
    | '\r' :: '\n' :: tl => line :: splitlinesAux fuel tl
    | _ :: tl => line :: splitlinesAux fuel tl

/-- Python `str.splitlines()`: split at line boundaries (`\r\n` counting as
one), with no trailing empty line for a terminal boundary and `[]` for the
empty string. -/
def splitlines (l : List Char) : List (List Char) :=
  splitlinesAux l.length l

/-- `_strip_inline_source_tags`: blank answers collapse to the empty
string; otherwise substitute the tag pattern by a space, collapse runs of
spaces/tabs per line, strip each line, drop emptied lines (unless the
answer is a single line), join with newlines and strip. -/
def stripInlineSourceTags (answer : List Char) : List Char :=
  if pyStrip answer = [] then
    []
  else
    let cleaned := subTags answer
    let cleanedLines :=
      (splitlines cleaned).map (fun line => pyStrip (collapseRuns isSpaceTab ' ' line))
    let kept := cleanedLines.filter (fun line => line ≠ [] || cleanedLines.length = 1)
    pyStrip (joinChar '\n' kept)

/-- The per-line cleanup described by the specification sentence for the
answer field: collapse runs of spaces and tabs to a single space, then
strip the line. -/
def specLineCleanup (line : List Char) : List Char :=
  pyStrip (collapseRuns isSpaceTab ' ' line)

/-- The full answer normalization as the claim describes it: remove
(replace by a space) every inline citation marker, clean every line up,
drop the lines left empty unless the answer is a single line, rejoin and
strip. -/
def specAnswerNormalization (answer : List Char) : List Char :=
  if pyStrip answer = [] then
    []
  else
    let ls := (splitlines (subTags answer)).map specLineCleanup
    pyStrip (joinChar '\n' (ls.filter (fun line => line ≠ [] || ls.length = 1)))

/-! ## SSE chat streams
(`RagRerankedChatService.stream_chat_session` in
`backend_rag/src/reranked/chat_service.py` and `rag_chat_session_stream`
in `backend_rag/src/routes/rag.py`) -/

/-- A downstream server-sent event.  The `meta` payload fields play no role
in the claims, so `meta` is a bare constructor. -/
inductive SseEvent where
  | meta
  | delta (content : List Char)
  | done (answer : List Char)
deriving Repr, DecidableEq

/-- The answer carried by the `done` event of
`stream_chat_session`: the joined deltas are tag-stripped
(`normalized_answer`), then `_build_response` strips the string and
tag-strips once more. -/
def sessionDoneAnswer (joined : List Char) : List Char :=
  stripInlineSourceTags (pyStrip (stripInlineSourceTags joined))

/-- The generation loop of `stream_chat_session`: skip empty upstream
deltas, emit the rest as `delta` events while accumulating `answer_parts`,
then emit the final `done` event. -/
def streamSessionLoop : List (List Char) → List (List Char) → List SseEvent
  | [], parts => [SseEvent.done (sessionDoneAnswer parts.flatten)]
  | d :: ds, parts =>
    if d = [] then
      streamSessionLoop ds parts
    else
      SseEvent.delta d :: streamSessionLoop ds (parts ++ [d])

/-- `RagRerankedChatService.stream_chat_session`, abstracted over the
upstream generation deltas: one `meta` event, then the generation loop. -/
def streamChatSession (deltas : List (List Char)) : List SseEvent :=
  SseEvent.meta :: streamSessionLoop deltas []

/-- Fuelled fixed-size slicing (one unit of fuel per produced slice). -/
def chunksOfAux (size : Nat) : Nat → List Char → List (List Char)
  | _, [] => []
  | 0, _ :: _ => []
  | fuel + 1, l => l.take size :: chunksOfAux size fuel (l.drop size)

/-- Fixed-size slices of a non-empty text
(`[text[i : i + size] for i in range(0, len(text), size)]`). -/
def chunksOf (size : Nat) (l : List Char) : List (List Char) :=
  chunksOfAux size l.length l

/-- `_chunk_text(text, size)`. -/
def chunkTextPieces (text : List Char) (size : Nat) : List (List Char) :=
  if text = [] then [[]] else chunksOf size text

/-- `rag_chat_session_stream` (`backend_rag/src/routes/rag.py`), non-error
path, abstracted over the final response answer: one `meta`, the answer
re-chunked into `delta` events of at most 20 characters, then `done`
carrying the same answer. -/
def ragSessionStreamEvents (answer : List Char) : List SseEvent :=
  SseEvent.meta :: (chunkTextPieces answer 20).map SseEvent.delta ++
    [SseEvent.done answer]

/-! ## Agentic chunking and mode dispatch
(`backend_ingestion/src/tools/agentic_chunker.py` and
`IngestionService._chunk_runtime` in
`backend/src/services/ingestion_service.py`) -/

/-- A Python value as produced by the JSON response parser. -/
inductive PyVal where
  | str (s : List Char)
  | int (n : Int)
  | bool (b : Bool)
  | null
  | list (xs : List PyVal)
  | dict (fields : List (String × PyVal))
deriving Repr

/-- A chunk proposal (`ChunkCandidate` in
`backend/src/models/runtime/pipeline.py`). -/
structure ChunkCandidate where
  chunk_index : Nat
  start_char : Nat
  end_char : Nat
  text : List Char
  rationale : Option (List Char)
deriving Repr, DecidableEq

/-- Python `str.find(sub, start)` scanning helper: the lowest index `≥ i`
at which `needle` occurs in the remaining input. -/
def findFromAux (needle : List Char) : List Char → Nat → Option Nat
  | l, i =>
    if needle.isPrefixOf l then
      some i
    else
      match l with
      | [] => none
      | _ :: tl => findFromAux needle tl (i + 1)

/-- Python `text.find(sub, start)` (`none` standing for `-1`). -/
def pyFind (hay needle : List Char) (start : Nat) : Option Nat :=
  findFromAux needle (hay.drop start) start

/-- The validation/location loop of `AgenticChunker.chunk` over the parsed
`chunks` entries: malformed entries raise `ValidationDomainError`; each
chunk text is stripped, located with a cursor-advancing `find` (falling
back to the cursor itself), and given the model rationale or
`"Agentic boundary selection"`. -/
def agenticLoop (text : List Char) :
    List PyVal → Nat → Nat → Except String (List ChunkCandidate)
  | [], _, _ => .ok []
  | raw :: rest, index, cursor =>
    match raw with
    | .dict fields =>
      match assocGet fields "text" with
      | some (.str tv) =>
        if pyStrip tv = [] then
          .error "Agentic chunk text is missing"
        else
          let chunkText := pyStrip tv
          let start :=
            match pyFind text chunkText cursor with
            | some i => i
            | none => cursor
          let stop := start + chunkText.length
          let rationale : List Char :=
            match assocGet fields "rationale" with
            | some (.str rv) => rv
            | _ => "Agentic boundary selection".toList
          match agenticLoop text rest (index + 1) stop with
          | .ok tail => .ok (⟨index, start, stop, chunkText, some rationale⟩ :: tail)
          | .error e => .error e
      | _ => .error "Agentic chunk text is missing"
    | _ => .error "Agentic chunk entry is malformed"

/-- `AgenticChunker.chunk` after the upstream completion has been parsed
into `payload`: validate the `chunks` list and run the location loop. -/
def agenticChunk (text : List Char) (payload : List (String × PyVal)) :
    Except String (List ChunkCandidate) :=
  match assocGet payload "chunks" with
  | some (.list []) => .error "Agentic chunking did not return any chunks"
  | some (.list rawChunks) => agenticLoop text rawChunks 0 0
  | _ => .error "Agentic chunking did not return any chunks"

/-- `IngestionService._chunk_runtime`, abstracted over the deterministic
chunker's output and the agentic chunker's outcome: deterministic mode
returns the deterministic chunks; any other mode returns the agentic
outcome unchanged — there is no exception handler around the agentic
call. -/
def chunkRuntime (mode : String) (deterministicChunks : List ChunkCandidate)
    (agenticOutcome : Except String (List ChunkCandidate)) :
    Except String (List ChunkCandidate) :=
  if mode = "deterministic" then
    .ok deterministicChunks
  else
    agenticOutcome

/-! ## Contextual headers
(`backend/src/tools/contextual_header_generator.py` and
`IngestionService._automatic_contextualization`) -/

/-- A contextualized chunk (`ContextualizedChunkCandidate`). -/
structure ContextualizedChunkCandidate where
  chunk_index : Nat
  start_char : Nat
  end_char : Nat
  rationale : Option (List Char)
  chunk_text : List Char
  context_header : List Char
  contextualized_text : List Char
deriving Repr, DecidableEq

/-- `ContextualHeaderGenerator._template_header`. -/
def templateHeader (documentName : List Char) (chunkIndex : Nat) : List Char :=
  "Document '".toList ++ documentName ++ "', chunk ".toList ++
    (Nat.repr (chunkIndex + 1)).toList ++ ['.']

/-- `f"{header}\n\n{chunk.text}".strip()` — the contextualized text
composed in `ContextualHeaderGenerator.contextualize`. -/
def contextualizedTextOf (header chunkText : List Char) : List Char :=
  pyStrip (header ++ '\n' :: '\n' :: chunkText)

/-- One iteration of `ContextualHeaderGenerator.contextualize` for a chunk
whose header has been computed. -/
def contextualizeOne (header : List Char) (c : ChunkCandidate) :
    ContextualizedChunkCandidate :=
  ⟨c.chunk_index, c.start_char, c.end_char, c.rationale, c.text, header,
    contextualizedTextOf header c.text⟩

/-- `ContextualHeaderGenerator.contextualize` (non-cancelled run),
abstracted over the chat completions of llm mode: llm-mode headers are the
stripped model responses, any other mode uses the template header. -/
def contextualizeChunks (mode : String) (documentName : List Char)
    (llmResponse : ChunkCandidate → List Char) (chunks : List ChunkCandidate) :
    List ContextualizedChunkCandidate :=
  chunks.map (fun c =>
    let header :=
      if mode = "llm" then pyStrip (llmResponse c)
      else templateHeader documentName c.chunk_index
    contextualizeOne header c)

/-- The `contextual_headers = False` branch of
`IngestionService._automatic_contextualization`: empty header and the
chunk text itself as contextualized text. -/
def automaticNoHeaderChunks (chunks : List ChunkCandidate) :
    List ContextualizedChunkCandidate :=
  chunks.map (fun c =>
    ⟨c.chunk_index, c.start_char, c.end_char, c.rationale, c.text, [], c.text⟩)

/-! ## Hybrid ranker (`backend/src/tools/hybrid_ranker.py`)

Scores are modelled over `ℚ`; `math.log` is abstracted as a function
parameter `lnQ` (its only use is inside the BM25 idf term). -/

/-- `RetrievalChunkCandidate` (`backend/src/models/runtime/retrieval.py`). -/
structure RetrievalChunkCandidate where
  chunk_key : String
  document_id : String
  document_name : String
  chunk_index : Nat
  context_header : List Char
  text : List Char
deriving Repr, DecidableEq

/-- `RankedChunkCandidate`: a retrieval candidate with its
dense/sparse/hybrid scores. -/
structure RankedChunkCandidate where
  chunk_key : String
  document_id : String
  document_name : String
  chunk_index : Nat
  context_header : List Char
  text : List Char
  dense_score : ℚ
  sparse_score : ℚ
  hybrid_score : ℚ
deriving Repr, DecidableEq

/-- A character of the token pattern `[a-z0-9]+`. -/
def isTokenChar (c : Char) : Bool :=
  ('a' ≤ c && c ≤ 'z') || ('0' ≤ c && c ≤ '9')

/-- Fuelled scanner for maximal character runs (one unit of fuel per
input position). -/
def runsOfAux (p : Char → Bool) : Nat → List Char → List (List Char)
  | _, [] => []
  | 0, _ :: _ => []
  | fuel + 1, c :: rest =>
    if p c then
      (c :: rest.takeWhile p) :: runsOfAux p fuel (rest.dropWhile p)
    else
      runsOfAux p fuel rest

/-- Maximal runs of characters satisfying `p` (`re.findall` for a
character-class-plus pattern). -/
def runsOf (p : Char → Bool) (l : List Char) : List (List Char) :=
  runsOfAux p l.length l

/-- `HybridRanker._tokenize`: lowercase, then maximal `[a-z0-9]+` runs. -/
def tokenize (l : List Char) : List (List Char) :=
  runsOf isTokenChar (l.map Char.toLower)

/-- Association-list lookup for rational score maps. -/
def lookupScore (m : List (String × ℚ)) (key : String) : Option ℚ :=
  match m.find? (fun kv => kv.1 = key) with
  | some kv => some kv.2
  | none => none

/-- Python `dict(pairs)`: insertion order of first key occurrence,
last-write-wins values. -/
def pyDict (ps : List (String × ℚ)) : List (String × ℚ) :=
  ps.foldl (fun acc kv => assocSet acc kv.1 kv.2) []

/-- The BM25 score of one document for the query counter, mirroring the
inner loop of `HybridRanker.score_sparse`: terms absent from the document
contribute nothing, every other term contributes
`q_t * idf * (tf * (k1+1)) / max(norm, 1e-9)`. -/
def bm25DocScore (lnQ : ℚ → ℚ) (queryCounter : List (List Char × Nat))
    (docFreq : List Char → Nat) (totalDocs : Nat) (avgLen : ℚ)
    (tokens : List (List Char)) : ℚ :=
  let k1 : ℚ := 3 / 2
  let b : ℚ := 3 / 4
  let docLen : ℚ := tokens.length
  queryCounter.foldl
    (fun acc tq =>
      let freq := tokens.count tq.1
      if freq = 0 then
        acc
      else
        let nt := docFreq tq.1
        let idf := lnQ (1 + ((totalDocs : ℚ) - (nt : ℚ) + 1 / 2) / ((nt : ℚ) + 1 / 2))
        let norm := (freq : ℚ) + k1 * (1 - b + b * (docLen / avgLen))
        acc + (tq.2 : ℚ) * idf * ((freq : ℚ) * (k1 + 1)) / max norm (1 / 1000000000))
    0

/-- The query counter of `score_sparse` (`Counter(query_terms)`):
distinct query terms in first-seen order with their multiplicities. -/
def bm25QueryCounter (query : List Char) : List (List Char × Nat) :=
  (firstSeenDedup (tokenize query)).map
    (fun t => (t, (tokenize query).count t))

/-- The average tokenized document length of the candidate set, floored
at 1. -/
def bm25AvgLen (candidates : List RetrievalChunkCandidate) : ℚ :=
  max ((((candidates.map (fun c => tokenize c.text)).map List.length).sum : ℚ) /
    (((candidates.map (fun c => tokenize c.text)).map List.length).length : ℚ)) 1

/-- Document frequency over the tokenized candidate set. -/
def bm25DocFreq (candidates : List RetrievalChunkCandidate)
    (t : List Char) : Nat :=
  ((candidates.map (fun c => tokenize c.text)).filter
    (fun toks => t ∈ toks)).length

/-- The scored pairs of `score_sparse`: every candidate with a strictly
positive BM25 score, keyed by `chunk_key`, in candidate order. -/
def scoreSparseScored (lnQ : ℚ → ℚ) (query : List Char)
    (candidates : List RetrievalChunkCandidate) : List (String × ℚ) :=
  (candidates.zip (candidates.map (fun c => tokenize c.text))).filterMap
    (fun ct =>
      let score := bm25DocScore lnQ (bm25QueryCounter query)
        (bm25DocFreq candidates) candidates.length (bm25AvgLen candidates) ct.2
      if 0 < score then some (ct.1.chunk_key, score) else none)

/-- `HybridRanker.score_sparse`: compact BM25 over the candidate set,
returning the positive scores of the top `top_k` candidates keyed by
`chunk_key` (sorted by score descending, then turned into a dict). -/
def scoreSparse (lnQ : ℚ → ℚ) (query : List Char)
    (candidates : List RetrievalChunkCandidate) (topK : Nat) :
    List (String × ℚ) :=
  if candidates = [] then
    []
  else if tokenize query = [] then
    []
  else
    pyDict (((scoreSparseScored lnQ query candidates).mergeSort
      (fun a b => decide (b.2 ≤ a.2))).take topK)

/-- Lexicographic comparison of Python score triples
`(hybrid_score, dense_score, sparse_score)`. -/
def tripleLexLe (x y : ℚ × ℚ × ℚ) : Prop :=
  x.1 < y.1 ∨ (x.1 = y.1 ∧ (x.2.1 < y.2.1 ∨ (x.2.1 = y.2.1 ∧ x.2.2 ≤ y.2.2)))

instance tripleLexLe.decidable (x y : ℚ × ℚ × ℚ) : Decidable (tripleLexLe x y) := by
  unfold tripleLexLe
  infer_instance

/-- The score triple of a ranked candidate. -/
def rankedTriple (a : RankedChunkCandidate) : ℚ × ℚ × ℚ :=
  (a.hybrid_score, a.dense_score, a.sparse_score)

/-- Sort order of `fuse`: `a` may precede `b` when `b`'s triple is
lexicographically at most `a`'s (descending sort on the Python tuple
key). -/
def fuseLe (a b : RankedChunkCandidate) : Bool :=
  decide (tripleLexLe (rankedTriple b) (rankedTriple a))

/-- The clamped score map restricted to candidate keys (the
`dense_positive` / `sparse_positive` dict comprehensions of `fuse`). -/
def fusePositive (scores : List (String × ℚ))
    (candidates : List RetrievalChunkCandidate) : List (String × ℚ) :=
  scores.filterMap (fun kv =>
    if kv.1 ∈ candidates.map (fun c => c.chunk_key) then
      some (kv.1, max 0 kv.2)
    else
      none)

/-- `max(<positive scores>.values(), default=0.0)` in `fuse`. -/
def fuseMax (scores : List (String × ℚ))
    (candidates : List RetrievalChunkCandidate) : ℚ :=
  ((fusePositive scores candidates).map (fun kv => kv.2)).foldr max 0

/-- The participating keys of `fuse` (the set union
`dense_positive.keys() | sparse_positive.keys()`, traversed dense keys
first — the union's iteration order is unspecified in the source). -/
def fuseKeys (denseScores sparseScores : List (String × ℚ))
    (candidates : List RetrievalChunkCandidate) : List String :=
  (fusePositive denseScores candidates).map (fun kv => kv.1) ++
    ((fusePositive sparseScores candidates).map (fun kv => kv.1)).filter
      (fun k => k ∉ (fusePositive denseScores candidates).map (fun kv => kv.1))

/-- `candidate_map[key]` (a Python dict built by insertion keeps the last
candidate with a given key). -/
def candidateFor (candidates : List RetrievalChunkCandidate) (key : String) :
    Option RetrievalChunkCandidate :=
  (candidates.filter (fun c => c.chunk_key = key)).getLast?

/-- The ranked entry `fuse` builds for one participating key. -/
def fuseEntryOf (candidates : List RetrievalChunkCandidate)
    (denseScores sparseScores : List (String × ℚ)) (denseWeight : ℚ)
    (key : String) : Option RankedChunkCandidate :=
  (candidateFor candidates key).map (fun c =>
    let denseRaw := (lookupScore (fusePositive denseScores candidates) key).getD 0
    let sparseRaw := (lookupScore (fusePositive sparseScores candidates) key).getD 0
    let maxDense := fuseMax denseScores candidates
    let maxSparse := fuseMax sparseScores candidates
    let denseNorm := if 0 < maxDense then denseRaw / maxDense else 0
    let sparseNorm := if 0 < maxSparse then sparseRaw / maxSparse else 0
    let hybridScore := denseWeight * denseNorm + (1 - denseWeight) * sparseNorm
    RankedChunkCandidate.mk c.chunk_key c.document_id c.document_name
      c.chunk_index c.context_header c.text denseRaw sparseRaw hybridScore)

/-- `HybridRanker.fuse`: clamp negatives, normalize each score set by its
own maximum, weight, sort descending by
`(hybrid_score, dense_score, sparse_score)`, and keep `top_k`. -/
def fuse (candidates : List RetrievalChunkCandidate)
    (denseScores sparseScores : List (String × ℚ)) (topK : Nat)
    (denseWeight : ℚ) : List RankedChunkCandidate :=
  if candidates = [] then
    []
  else
    (((fuseKeys denseScores sparseScores candidates).filterMap
      (fuseEntryOf candidates denseScores sparseScores denseWeight)).mergeSort
        fuseLe).take topK

/-- Spec-side (from the claim's words): the candidates that participate
in fusion are exactly those whose key appears in at least one score
map. -/
def fuseParticipants (candidates : List RetrievalChunkCandidate)
    (denseScores sparseScores : List (String × ℚ)) :
    List RetrievalChunkCandidate :=
  candidates.filter (fun c =>
    (lookupScore denseScores c.chunk_key).isSome ||
      (lookupScore sparseScores c.chunk_key).isSome)

/-- Spec-side: a candidate's clamped raw score in a score map (absent
keys score 0, negative scores are clamped to 0). -/
def clampedScore (scores : List (String × ℚ)) (key : String) : ℚ :=
  max 0 ((lookupScore scores key).getD 0)

/-- Spec-side: the maximum of a score set after clamping, taken over the
candidate list (0 when empty). -/
def specMaxScore (scores : List (String × ℚ))
    (candidates : List RetrievalChunkCandidate) : ℚ :=
  (candidates.map (fun c => clampedScore scores c.chunk_key)).foldr max 0

/-- Spec-side (from the claim's words): the fused entry of a candidate —
clamped raw scores, each normalized by its score set's own maximum (0 when
that maximum is 0), combined as
`dense_weight * dense_norm + (1 - dense_weight) * sparse_norm`. -/
def fuseSpecEntry (denseScores sparseScores : List (String × ℚ))
    (denseWeight : ℚ) (candidates : List RetrievalChunkCandidate)
    (c : RetrievalChunkCandidate) : RankedChunkCandidate :=
  let dRaw := clampedScore denseScores c.chunk_key
  let sRaw := clampedScore sparseScores c.chunk_key
  let maxD := specMaxScore denseScores candidates
  let maxS := specMaxScore sparseScores candidates
  let dNorm := if 0 < maxD then dRaw / maxD else 0
  let sNorm := if 0 < maxS then sRaw / maxS else 0
  ⟨c.chunk_key, c.document_id, c.document_name, c.chunk_index,
    c.context_header, c.text, dRaw, sRaw,
    denseWeight * dNorm + (1 - denseWeight) * sNorm⟩

/-- Spec-side (from the claim's BM25 formula): the score of one document,
summed over the distinct query terms, with
`idf = ln(1 + (N - n_t + 0.5)/(n_t + 0.5))` and per-term contribution
`q_t * idf * (tf * (k1+1)) / max(tf + k1*(1 - b + b*L/avgL), 1e-9)` for
`k1 = 1.5`, `b = 0.75`, and the average document length floored at 1. -/
def bm25SpecScore (lnQ : ℚ → ℚ) (queryTerms : List (List Char))
    (candidates : List RetrievalChunkCandidate)
    (tokens : List (List Char)) : ℚ :=
  let N := candidates.length
  let docFreq : List Char → Nat :=
    fun t => (candidates.filter (fun c => t ∈ tokenize c.text)).length
  let lengths := candidates.map (fun c => (tokenize c.text).length)
  let avgLen : ℚ := max ((lengths.sum : ℚ) / (lengths.length : ℚ)) 1
  ((firstSeenDedup queryTerms).map (fun t =>
    let tf := tokens.count t
    if tf = 0 then 0
    else
      (queryTerms.count t : ℚ) *
        lnQ (1 + ((N : ℚ) - (docFreq t : ℚ) + 1 / 2) / ((docFreq t : ℚ) + 1 / 2)) *
        ((tf : ℚ) * (3 / 2 + 1)) /
        max ((tf : ℚ) + 3 / 2 * (1 - 3 / 4 + 3 / 4 * ((tokens.length : ℚ) / avgLen)))
          (1 / 1000000000))).sum

/-! ## Reranked retrieval
(`RerankedRetrievalService.retrieve` in
`backend_rag/src/reranked/retrieval_service.py`), abstracted over the
hybrid candidate list (`hybrid_result.sources`) and the reranker's
`(index, relevance_score)` rows. -/

/-- A hybrid retrieval source as fed into reranking (chunk payload plus
scores and the rank assigned by hybrid retrieval). -/
structure HybridSource where
  chunk_key : String
  document_id : String
  document_name : String
  chunk_index : Nat
  context_header : List Char
  text : List Char
  dense_score : ℚ
  sparse_score : ℚ
  hybrid_score : ℚ
  rank : Nat
deriving Repr, DecidableEq

/-- `RerankedSourceChunk`: the final source rows of reranked retrieval. -/
structure RerankedSourceChunk where
  chunk_key : String
  document_id : String
  document_name : String
  chunk_index : Nat
  context_header : List Char
  text : List Char
  source_id : String
  rank : Nat
  dense_score : ℚ
  sparse_score : ℚ
  hybrid_score : ℚ
  original_rank : Nat
  rerank_score : ℚ
deriving Repr, DecidableEq

/-- Build a final source row from a hybrid candidate and a rerank score
(`source_id` and `rank` still unassigned, `original_rank` preserving the
hybrid rank). -/
def mkRerankedSource (c : HybridSource) (score : ℚ) : RerankedSourceChunk :=
  ⟨c.chunk_key, c.document_id, c.document_name, c.chunk_index,
    c.context_header, c.text, "", 0, c.dense_score, c.sparse_score,
    c.hybrid_score, c.rank, score⟩

/-- The selection loop of `RerankedRetrievalService.retrieve` over the
reranker rows: skip out-of-range and already-consumed candidate indices,
append the candidate with its rerank score, and stop once `top_n` rows
have been taken. -/
def rerankSelect (cands : List HybridSource) (topN : Nat) :
    List (Int × ℚ) → List Nat → Nat → List RerankedSourceChunk
  | [], _, _ => []
  | (idx, score) :: rest, consumed, count =>
    if h : 0 ≤ idx ∧ idx.toNat < cands.length then
      if idx.toNat ∈ consumed then
        rerankSelect cands topN rest consumed count
      else
        let c := cands.get ⟨idx.toNat, h.2⟩
        if topN ≤ count + 1 then
          [mkRerankedSource c score]
        else
          mkRerankedSource c score ::
            rerankSelect cands topN rest (idx.toNat :: consumed) (count + 1)
    else
      rerankSelect cands topN rest consumed count

/-- Assign final ranks: `enumerate(final_sources, start=1)` sets
`rank = index` and `source_id = f"S{index}"`. -/
def assignSourceIds (l : List RerankedSourceChunk) : List RerankedSourceChunk :=
  l.mapIdx (fun i s =>
    { s with rank := i + 1, source_id := "S" ++ Nat.repr (i + 1) })

/-- `RerankedRetrievalService.retrieve`, final source construction: empty
candidates short-circuit; otherwise select by rerank rows with
`top_n = min(top_k, len(candidates))`, fall back to the hybrid order when
no row selects anything (rerank score 0), and assign `S1..Sk`. -/
def rerankedFinalSources (cands : List HybridSource) (rows : List (Int × ℚ))
    (topK : Nat) : List RerankedSourceChunk :=
  match cands with
  | [] => []
  | _ :: _ =>
    let topN := min topK cands.length
    let sel := rerankSelect cands topN rows [] 0
    let base :=
      match sel with
      | [] => (cands.take topN).map (fun c => mkRerankedSource c 0)
      | _ :: _ => sel
    assignSourceIds base

/-! ## Deterministic text normalizer
(`DeterministicTextNormalizer.normalize` in
`backend/src/tools/normalize_text.py`) -/

/-- `NormalizationResult` (`backend/src/models/runtime/pipeline.py`). -/
structure NormalizationResult where
  normalized_text : List Char
  removed_repeated_line_count : Nat
  collapsed_whitespace_count : Nat
deriving Repr, DecidableEq

/-- `text.replace("\r\n", "\n").replace("\r", "\n")` in one scan: a `\r`
followed by `\n` merges into one `\n`, any other `\r` becomes `\n` (the
second replace rewrites every carriage return left by the first, so the
sequential composition equals this single pass). -/
def replaceCR : List Char → List Char
  | [] => []
  | '\r' :: '\n' :: rest => '\n' :: replaceCR rest
  | '\r' :: rest => '\n' :: replaceCR rest
  | c :: rest => c :: replaceCR rest

/-- A zero-width character of the class `[​‌‍﻿]`. -/
def isZeroWidth (c : Char) : Bool :=
  c = '​' || c = '‌' || c = '‍' || c = '﻿'

/-- `re.subn(r"[​‌‍﻿]", "", ...)` (count discarded). -/
def stripZeroWidth (l : List Char) : List Char :=
  l.filter (fun c => !isZeroWidth c)

/-- `re.subn(r"(\w)-\n(\w)", r"\1\2", ...)`: un-hyphenate soft line
breaks, resuming after each four-character match. -/
def unhyphenateAux : Nat → List Char → List Char
  | _, [] => []
  | 0, l => l
  | fuel + 1, a :: tail =>
    match tail with
    | b :: c :: d :: rest =>
      if isWordChar a ∧ b = '-' ∧ c = '\n' ∧ isWordChar d then
        a :: d :: unhyphenateAux fuel rest
      else
        a :: unhyphenateAux fuel tail
    | _ => a :: tail

/-- Entry point of the un-hyphenation scan (fuelled; any fuel
`≥ l.length` yields the scan's value). -/
def unhyphenate (l : List Char) : List Char :=
  unhyphenateAux l.length l

/-- Whether the un-hyphenation pattern `(\w)-\n(\w)` occurs anywhere. -/
def hasHyphenBreak : List Char → Bool
  | a :: b :: c :: d :: rest =>
    (isWordChar a && b = '-' && c = '\n' && isWordChar d) ||
      hasHyphenBreak (b :: c :: d :: rest)
  | _ => false

/-- The blank-line compaction loop of `normalize`: non-blank lines reset
the counter, blank lines are kept while the running count stays within
`max_blank_lines`. -/
def compactBlanks (maxBlank : Int) : List (List Char) → Nat → List (List Char)
  | [], _ => []
  | l :: rest, blankCount =>
    if l ≠ [] then
      l :: compactBlanks maxBlank rest 0
    else if ((blankCount + 1 : Nat) : Int) ≤ maxBlank then
      [] :: compactBlanks maxBlank rest (blankCount + 1)
    else
      compactBlanks maxBlank rest (blankCount + 1)

/-- Stages 1–4 of `normalize`: CR unification, zero-width strip,
un-hyphenation, whitespace-run collapse (text together with the collapse
count). -/
def normStage4 (text : List Char) : List Char × Nat :=
  collapseRunsCount isNonNlWs ' ' (unhyphenate (stripZeroWidth (replaceCR text)))

/-- Stage 5 of `normalize`: `text.split("\n")` with each line stripped. -/
def normLines (text : List Char) : List (List Char) :=
  (splitChar '\n' (normStage4 text).1).map pyStrip

/-- The repeated-short-line predicate: non-empty, at most 100 characters,
and occurring at least three times among such lines. -/
def normIsRepeated (text : List Char) (l : List Char) : Bool :=
  3 ≤ ((normLines text).filter (fun l' => l' ≠ [] ∧ l'.length ≤ 100)).count l

/-- The lines surviving the (optional) repeated-short-line removal pass. -/
def normRemovedLines (text : List Char) (flag : Bool) : List (List Char) :=
  if flag then (normLines text).filter (fun l => !normIsRepeated text l)
  else normLines text

/-- The number of lines dropped by the repeated-short-line pass. -/
def normRemovedCount (text : List Char) (flag : Bool) : Nat :=
  if flag then ((normLines text).filter (normIsRepeated text)).length else 0

/-- `DeterministicTextNormalizer.normalize`. -/
def normalize (text : List Char) (maxBlankLines : Int)
    (removeRepeatedShortLines : Bool) : NormalizationResult :=
  ⟨pyStrip (joinChar '\n'
      (compactBlanks maxBlankLines
        (normRemovedLines text removeRepeatedShortLines) 0)),
   normRemovedCount text removeRepeatedShortLines,
   (normStage4 text).2⟩

/-! ### Characterization of normalizer output

The following predicates describe the shape of `normalize`'s output; they
drive the idempotence analysis. -/

/-- No two adjacent non-newline whitespace characters (whitespace runs
have been collapsed to single spaces). -/
def wsChainOk (l : List Char) : Prop :=
  l.Chain' (fun a b => ¬(isNonNlWs a = true ∧ isNonNlWs b = true))

/-- Every character is free of carriage returns and zero-width marks, and
the only non-newline whitespace is the plain space. -/
def charsClean (l : List Char) : Prop :=
  ∀ c ∈ l, c ≠ '\r' ∧ isZeroWidth c = false ∧ (isNonNlWs c = true → c = ' ')

/-- Blank-line runs stay within `max_blank_lines`, starting from a running
blank count. -/
def okBlank (mbl : Int) : Nat → List (List Char) → Prop
  | _, [] => True
  | bc, l :: rest =>
    (l ≠ [] ∧ okBlank mbl 0 rest) ∨
    (l = [] ∧ ((bc + 1 : Nat) : Int) ≤ mbl ∧ okBlank mbl (bc + 1) rest)

/-- Drop trailing blank lines. -/
def trimBlanksRight (L : List (List Char)) : List (List Char) :=
  (L.reverse.dropWhile (fun l => l.isEmpty)).reverse

/-- Drop leading and trailing blank lines. -/
def trimBlanks (L : List (List Char)) : List (List Char) :=
  trimBlanksRight (L.dropWhile (fun l => l.isEmpty))

/-! # Theorems -/

/-! ## Helper lemmas -/

/-- After a present-key map update, `find?` retrieves the new binding. -/
theorem find?_map_set {α : Type} (l : List (String × α)) (k : String) (v : α)
    (h : (l.find? (fun kv => kv.1 = k)).isSome) :
    (l.map (fun kv => if kv.1 = k then (k, v) else kv)).find?
      (fun kv => kv.1 = k) = some (k, v) := by
  induction l with
  | nil => simp at h
  | cons hd tl ih =>
    by_cases hk : hd.1 = k
    · simp [List.find?_cons, hk]
    · have hd1 : (decide (hd.1 = k)) = false := by simp [hk]
      rw [List.find?_cons, hd1] at h
      simp only [List.map_cons, if_neg hk]
      rw [List.find?_cons, hd1]
      exact ih h

/-- Updating an association list makes the binding retrievable. -/
theorem assocGet_assocSet_self {α : Type} (l : List (String × α)) (k : String)
    (v : α) : assocGet (assocSet l k v) k = some v := by
  unfold assocSet
  by_cases hs : (l.find? (fun kv => kv.1 = k)).isSome
  · rw [if_pos hs]
    unfold assocGet
    rw [find?_map_set l k v hs]
  · rw [if_neg hs]
    unfold assocGet
    rw [List.find?_append]
    have hnone : l.find? (fun kv => kv.1 = k) = none :=
      Option.not_isSome_iff_eq_none.mp hs
    rw [hnone]
    simp [List.find?_cons]

/-! ## C9 — operation cancellation -/

/-- **C9.** Cancelling an operation id that is not currently registered
returns `cancelled = false` without an error, leaving the registry
unchanged; cancelling a registered id sets that operation's cancellation
flag and returns `true`. -/
theorem operationManager_cancel_spec :
    (∀ (st : OperationRegistry) (opId : String),
        assocGet st.events opId = none →
        OperationManager.cancel st opId = (false, st)) ∧
    (∀ (st : OperationRegistry) (opId : String) (flag : Bool),
        assocGet st.events opId = some flag →
        (OperationManager.cancel st opId).1 = true ∧
        assocGet (OperationManager.cancel st opId).2.events opId = some true) := by
  constructor
  · intro st opId h
    unfold OperationManager.cancel
    rw [h]
  · intro st opId flag h
    unfold OperationManager.cancel
    rw [h]
    exact ⟨rfl, assocGet_assocSet_self _ _ _⟩

/-- Witness for C9 at a concrete registry: cancelling an unknown id
returns `false` and the untouched registry, cancelling a live id flips its
flag. -/
theorem operationManager_cancel_spec_witness :
    OperationManager.cancel ⟨[("op-1", false)]⟩ "op-2" =
      (false, (⟨[("op-1", false)]⟩ : OperationRegistry)) ∧
    (OperationManager.cancel ⟨[("op-1", false)]⟩ "op-1").1 = true ∧
    assocGet (OperationManager.cancel ⟨[("op-1", false)]⟩ "op-1").2.events
      "op-1" = some true :=
  ⟨operationManager_cancel_spec.1 ⟨[("op-1", false)]⟩ "op-2" (by decide),
    operationManager_cancel_spec.2 ⟨[("op-1", false)]⟩ "op-1" false (by decide)⟩

/-! ## C8 — citation extraction -/

/-- The guarded fold of `CitationParser.extract` equals first-seen
deduplication of the availability-filtered match list. -/
theorem citationExtract_foldl_eq (available : List (List Char)) :
    ∀ (ms acc : List (List Char)),
      ms.foldl
        (fun ordered m =>
          if m ∈ ordered ∨ m ∉ available then ordered else ordered ++ [m]) acc =
      (ms.filter (fun m => m ∈ available)).foldl
        (fun acc m => if m ∈ acc then acc else acc ++ [m]) acc := by
  intro ms
  induction ms with
  | nil => intro acc; rfl
  | cons m rest ih =>
    intro acc
    by_cases hm : m ∈ available <;> by_cases ha : m ∈ acc <;>
      simp [List.foldl_cons, List.filter_cons, hm, ha, ih]

/-- The deduplicating fold keeps the accumulator's nodup property. -/
theorem dedup_foldl_nodup :
    ∀ (ms acc : List (List Char)), acc.Nodup →
      (ms.foldl (fun acc m => if m ∈ acc then acc else acc ++ [m]) acc).Nodup := by
  intro ms
  induction ms with
  | nil => intro acc h; exact h
  | cons m rest ih =>
    intro acc h
    simp only [List.foldl_cons]
    by_cases hm : m ∈ acc
    · rw [if_pos hm]
      exact ih acc h
    · rw [if_neg hm]
      refine ih _ ?_
      simp [List.nodup_append, h, hm]

/-- Elements produced by the deduplicating fold come from the accumulator
or from the processed list. -/
theorem dedup_foldl_mem :
    ∀ (ms acc : List (List Char)) (x : List Char),
      x ∈ ms.foldl (fun acc m => if m ∈ acc then acc else acc ++ [m]) acc →
      x ∈ acc ∨ x ∈ ms := by
  intro ms
  induction ms with
  | nil => intro acc x h; exact Or.inl h
  | cons m rest ih =>
    intro acc x h
    simp only [List.foldl_cons] at h
    by_cases hm : m ∈ acc
    · rw [if_pos hm] at h
      rcases ih acc x h with h1 | h1
      · exact Or.inl h1
      · exact Or.inr (List.mem_cons_of_mem _ h1)
    · rw [if_neg hm] at h
      rcases ih _ x h with h1 | h1
      · rcases List.mem_append.mp h1 with h2 | h2
        · exact Or.inl h2
        · simp only [List.mem_singleton] at h2
          exact Or.inr (h2 ▸ List.mem_cons_self _ _)
      · exact Or.inr (List.mem_cons_of_mem _ h1)

/-- **C8.** Citation extraction returns the ids matched by the pattern
`[\[【](S\d+)[\]】]`, deduplicated in first-seen order (the
availability-filtered first-seen deduplication of the match list), without
duplicates, and containing only ids present in the active source set; on
the same answer and source set the extraction is a pure function, so a
second run returns the same list. -/
theorem citationExtract_spec (answer : List Char) (available : List (List Char)) :
    citationExtract answer available =
      firstSeenFilteredDedup (findCitations answer) available ∧
    (citationExtract answer available).Nodup ∧
    (∀ m ∈ citationExtract answer available,
      m ∈ available ∧ m ∈ findCitations answer) := by
  have heq : citationExtract answer available =
      firstSeenFilteredDedup (findCitations answer) available := by
    unfold citationExtract firstSeenFilteredDedup firstSeenDedup
    exact citationExtract_foldl_eq available (findCitations answer) []
  refine ⟨heq, ?_, ?_⟩
  · rw [heq]
    unfold firstSeenFilteredDedup firstSeenDedup
    exact dedup_foldl_nodup _ [] List.nodup_nil
  · intro m hm
    rw [heq] at hm
    unfold firstSeenFilteredDedup firstSeenDedup at hm
    rcases dedup_foldl_mem _ [] m hm with h1 | h1
    · exact absurd h1 (List.not_mem_nil m)
    · have := List.mem_filter.mp h1
      exact ⟨by simpa using this.2, this.1⟩

/-! ## C10 — answer normalization is more than marker removal -/

/-- **C10.** The answer stored on the chat response is not merely the
model answer with inline citation markers removed: the returned text is
the marker-substituted answer with every line's space/tab runs collapsed
and stripped and emptied lines dropped (unless the answer is a single
line); consequently there are answers without any citation marker — on
which marker removal is the identity — that the normalization still
changes. -/
theorem stripInlineSourceTags_beyond_marker_removal :
    (∀ a, stripInlineSourceTags a = specAnswerNormalization a) ∧
    (∃ a, findCitations a = [] ∧ subTags a = a ∧
      stripInlineSourceTags a ≠ a) := by
  constructor
  · intro a
    rfl
  · exact ⟨"a  b".toList, by decide, by decide, by decide⟩

/-! ## C1 — agentic chunking failures propagate instead of falling back

`IngestionService._chunk_runtime` dispatches to the agentic chunker with
no exception handler, so a `ValidationDomainError` raised by
`AgenticChunker.chunk` (here: a model reply whose `chunks` list is empty)
reaches the caller; the deterministic chunker is never consulted and no
`"Fallback to deterministic chunking"` rationale is produced.  The
repository's own test
(`backend/tests/test_ingestion_service_chunk_fallback.py`) requires the
fallback. -/

/-- **C1.** In agentic mode `_chunk_runtime` returns the agentic outcome
unchanged, so an agentic failure propagates as an error: at the concrete
failing input (a parsed model reply `{"chunks": []}`) the chunking
operation errors out instead of returning the deterministic chunks with a
`"Fallback to deterministic chunking"` rationale. -/
theorem chunkRuntime_agentic_error_propagates :
    (∀ (det : List ChunkCandidate) (e : String),
      chunkRuntime "agentic" det (Except.error e) = Except.error e) ∧
    agenticChunk "Alpha. Beta.".toList [("chunks", PyVal.list [])] =
      Except.error "Agentic chunking did not return any chunks" ∧
    chunkRuntime "agentic"
      [⟨0, 0, 12, "Alpha. Beta.".toList,
        some "Deterministic paragraph-aware boundary".toList⟩]
      (agenticChunk "Alpha. Beta.".toList [("chunks", PyVal.list [])]) =
      Except.error "Agentic chunking did not return any chunks" := by
  refine ⟨?_, ?_, ?_⟩
  · intro det e
    rfl
  · rfl
  · rfl

/-! ## C4 — contextualized text composition -/

/-- `dropWhile` is idempotent. -/
theorem dropWhile_idem (p : Char → Bool) (l : List Char) :
    (l.dropWhile p).dropWhile p = l.dropWhile p := by
  induction l with
  | nil => rfl
  | cons c rest ih =>
    by_cases hc : p c
    · simp [List.dropWhile_cons, hc, ih]
    · simp [List.dropWhile_cons, hc]

/-- A string equal to its own strip is unchanged by the one-sided
whitespace drops. -/
theorem pyStrip_parts {t : List Char} (h : pyStrip t = t) :
    t.dropWhile pyIsSpace = t ∧ t.reverse.dropWhile pyIsSpace = t.reverse := by
  unfold pyStrip dropRightWhile at h
  have hd : (t.dropWhile pyIsSpace).length ≤ t.length :=
    (List.dropWhile_sublist _).length_le
  have hr : ((t.dropWhile pyIsSpace).reverse.dropWhile pyIsSpace).length ≤
      (t.dropWhile pyIsSpace).reverse.length :=
    (List.dropWhile_sublist _).length_le
  have hlen : ((t.dropWhile pyIsSpace).reverse.dropWhile pyIsSpace).length =
      t.length := by
    have := congrArg List.length h
    simpa using this
  simp only [List.length_reverse] at hr
  have hdt : t.dropWhile pyIsSpace = t :=
    (List.dropWhile_sublist _).eq_of_length (by omega)
  constructor
  · exact hdt
  · have h2 : (t.dropWhile pyIsSpace).reverse.dropWhile pyIsSpace =
        (t.dropWhile pyIsSpace).reverse :=
      (List.dropWhile_sublist _).eq_of_length (by simp; omega)
    rw [hdt] at h2
    exact h2

/-- A string unchanged by both one-sided whitespace drops equals its own
strip. -/
theorem pyStrip_eq_self_of {t : List Char}
    (h1 : t.dropWhile pyIsSpace = t)
    (h2 : t.reverse.dropWhile pyIsSpace = t.reverse) : pyStrip t = t := by
  unfold pyStrip dropRightWhile
  rw [h1, h2]
  exact List.reverse_reverse t

/-- Python `str.strip` is idempotent. -/
theorem pyStrip_idem (t : List Char) : pyStrip (pyStrip t) = pyStrip t := by
  have hps : pyStrip t =
      ((t.dropWhile pyIsSpace).reverse.dropWhile pyIsSpace).reverse := rfl
  refine pyStrip_eq_self_of ?_ ?_
  · rw [hps]
    have hsplit : (t.dropWhile pyIsSpace).reverse =
        (t.dropWhile pyIsSpace).reverse.takeWhile pyIsSpace ++
          (t.dropWhile pyIsSpace).reverse.dropWhile pyIsSpace :=
      (List.takeWhile_append_dropWhile _ _).symm
    have husplit : t.dropWhile pyIsSpace =
        ((t.dropWhile pyIsSpace).reverse.dropWhile pyIsSpace).reverse ++
          ((t.dropWhile pyIsSpace).reverse.takeWhile pyIsSpace).reverse :=
      calc t.dropWhile pyIsSpace
          = (t.dropWhile pyIsSpace).reverse.reverse :=
            (List.reverse_reverse _).symm
        _ = ((t.dropWhile pyIsSpace).reverse.takeWhile pyIsSpace ++
              (t.dropWhile pyIsSpace).reverse.dropWhile pyIsSpace).reverse := by
            rw [← hsplit]
        _ = ((t.dropWhile pyIsSpace).reverse.dropWhile pyIsSpace).reverse ++
              ((t.dropWhile pyIsSpace).reverse.takeWhile pyIsSpace).reverse :=
            List.reverse_append _ _
    cases hvr : ((t.dropWhile pyIsSpace).reverse.dropWhile pyIsSpace).reverse with
    | nil => simp
    | cons d rest =>
      have hud : (t.dropWhile pyIsSpace).head? = some d := by
        rw [husplit, hvr]
        simp
      have hdns : pyIsSpace d = false := by
        have hh := List.head?_dropWhile_not pyIsSpace t
        rw [hud] at hh
        simpa using hh
      simp [List.dropWhile_cons, hdns]
  · rw [hps, List.reverse_reverse]
    exact dropWhile_idem _ _

/-- Prepending to a list whose strip-front is trivial keeps `dropWhile`
trivial. -/
theorem dropWhile_eq_self_append {p : Char → Bool} {a : List Char}
    (b : List Char) (ha : a.dropWhile p = a) (hne : a ≠ []) :
    (a ++ b).dropWhile p = a ++ b := by
  cases a with
  | nil => exact absurd rfl hne
  | cons c t =>
    have hc : p c = false := by
      by_contra hcc
      have hcc' : p c = true := by simpa using hcc
      rw [List.dropWhile_cons, hcc'] at ha
      have hlc := congrArg List.length ha
      have hlen : (t.dropWhile p).length ≤ t.length :=
        (List.dropWhile_sublist _).length_le
      simp at hlc
      omega
    simp [List.dropWhile_cons, hc]

/-- The composed contextualized text for stripped headers and non-empty
stripped chunk texts: the final `strip()` removes nothing (non-empty
header) or exactly the separator (empty header). -/
theorem contextualizedTextOf_spec (header text : List Char)
    (hh : pyStrip header = header) (ht : pyStrip text = text)
    (hne : text ≠ []) :
    contextualizedTextOf header text =
      if header = [] then text else header ++ '\n' :: '\n' :: text := by
  obtain ⟨hh1, hh2⟩ := pyStrip_parts hh
  obtain ⟨ht1, ht2⟩ := pyStrip_parts ht
  by_cases hhe : header = []
  · subst hhe
    rw [if_pos rfl]
    unfold contextualizedTextOf pyStrip dropRightWhile
    have h1 : ('\n' :: '\n' :: text).dropWhile pyIsSpace = text := by
      simp only [List.dropWhile_cons,
        show pyIsSpace '\n' = true from by decide, if_true]
      exact ht1
    simp only [List.nil_append]
    rw [h1, ht2]
    exact List.reverse_reverse text
  · rw [if_neg hhe]
    unfold contextualizedTextOf pyStrip dropRightWhile
    have hfront : ((header ++ '\n' :: '\n' :: text)).dropWhile pyIsSpace =
        header ++ '\n' :: '\n' :: text :=
      dropWhile_eq_self_append _ hh1 hhe
    have hrevne : text.reverse ≠ [] := by
      simpa using hne
    have hshape : (header ++ '\n' :: '\n' :: text).reverse =
        text.reverse ++ ('\n' :: '\n' :: []) ++ header.reverse := by
      have h2 : ('\n' :: '\n' :: text) = ['\n', '\n'] ++ text := rfl
      rw [h2, List.reverse_append, List.reverse_append]
      rfl
    have hback : (header ++ '\n' :: '\n' :: text).reverse.dropWhile pyIsSpace =
        (header ++ '\n' :: '\n' :: text).reverse := by
      rw [hshape, List.append_assoc]
      rw [dropWhile_eq_self_append _ ht2 hrevne]
    rw [hfront, hback]
    exact List.reverse_reverse _

/-- The template header is already stripped (it starts with `D` and ends
with a period). -/
theorem templateHeader_stripped (docName : List Char) (i : Nat) :
    pyStrip (templateHeader docName i) = templateHeader docName i := by
  refine pyStrip_eq_self_of ?_ ?_
  · unfold templateHeader
    rw [show ("Document '".toList ++ docName ++ "', chunk ".toList ++
        (Nat.repr (i + 1)).toList ++ ['.']) =
      'D' :: ("ocument '".toList ++ docName ++ "', chunk ".toList ++
        (Nat.repr (i + 1)).toList ++ ['.']) from rfl]
    simp only [List.dropWhile_cons,
      show pyIsSpace 'D' = false from by decide, Bool.false_eq_true, if_false]
  · unfold templateHeader
    have hshape : ("Document '".toList ++ docName ++ "', chunk ".toList ++
        (Nat.repr (i + 1)).toList ++ ['.']).reverse =
      '.' :: ((Nat.repr (i + 1)).toList.reverse ++
        "', chunk ".toList.reverse ++ docName.reverse ++
        "Document '".toList.reverse) := by
      simp [List.reverse_append]
    rw [hshape]
    simp only [List.dropWhile_cons,
      show pyIsSpace '.' = false from by decide, Bool.false_eq_true, if_false]

/-- **C4 (amended).** For chunks whose text is non-empty and stripped of
leading/trailing whitespace (as the deterministic and agentic chunkers
produce), every chunk contextualized in llm or template mode stores
`context_header ++ "\n\n" ++ chunk_text` when the header is non-empty and
the bare chunk text when the header is empty; chunks of automatic
ingestion without contextual headers always store the bare chunk text with
an empty header.  For other texts the stored value is additionally
stripped (see the counterexample). -/
theorem contextualize_composition (mode : String) (docName : List Char)
    (resp : ChunkCandidate → List Char) (chunks : List ChunkCandidate)
    (hstrip : ∀ c ∈ chunks, pyStrip c.text = c.text)
    (hne : ∀ c ∈ chunks, c.text ≠ []) :
    (∀ item ∈ contextualizeChunks mode docName resp chunks,
      item.contextualized_text =
        if item.context_header = [] then item.chunk_text
        else item.context_header ++ '\n' :: '\n' :: item.chunk_text) ∧
    (∀ (other : List ChunkCandidate),
      ∀ item ∈ automaticNoHeaderChunks other,
        item.context_header = [] ∧
        item.contextualized_text = item.chunk_text) := by
  constructor
  · intro item hitem
    unfold contextualizeChunks at hitem
    obtain ⟨c, hc, hmk⟩ := List.mem_map.mp hitem
    have hhs : pyStrip (if mode = "llm" then pyStrip (resp c)
        else templateHeader docName c.chunk_index) =
        (if mode = "llm" then pyStrip (resp c)
          else templateHeader docName c.chunk_index) := by
      by_cases hm : mode = "llm"
      · simp [hm, pyStrip_idem]
      · simp [hm, templateHeader_stripped]
    rw [← hmk]
    exact contextualizedTextOf_spec _ c.text hhs (hstrip c hc) (hne c hc)
  · intro other item hitem
    obtain ⟨c, hc, hmk⟩ := List.mem_map.mp hitem
    rw [← hmk]
    exact ⟨rfl, rfl⟩

/-- Witness for the amended C4 at a concrete template-mode run with a
stripped one-character chunk text. -/
theorem contextualize_composition_witness :
    (contextualizeOne (templateHeader ['d'] 0)
      ⟨0, 0, 1, ['x'], none⟩).contextualized_text =
      templateHeader ['d'] 0 ++ '\n' :: '\n' :: ['x'] := by
  have h := (contextualize_composition "template" ['d'] (fun _ => [])
      [⟨0, 0, 1, ['x'], none⟩] (by decide) (by decide)).1
      (contextualizeOne (templateHeader ['d'] 0) ⟨0, 0, 1, ['x'], none⟩)
      (by decide)
  rw [if_neg (by decide)] at h
  exact h

/-- Counterexample to C4 as stated: a template-mode chunk whose text
carries a trailing space is stored with that space stripped, so the stored
text differs from `header ++ "\n\n" ++ chunk_text`. -/
theorem contextualize_composition_counterexample :
    templateHeader ['d'] 0 ≠ [] ∧
    contextualizeOne (templateHeader ['d'] 0) ⟨0, 0, 2, "x ".toList, none⟩ ∈
      contextualizeChunks "template" ['d'] (fun _ => [])
        [⟨0, 0, 2, "x ".toList, none⟩] ∧
    (contextualizeOne (templateHeader ['d'] 0)
      ⟨0, 0, 2, "x ".toList, none⟩).contextualized_text ≠
      templateHeader ['d'] 0 ++ '\n' :: '\n' :: "x ".toList := by
  decide

/-! ## C3 — session SSE event shape -/

/-- The generation loop emits the non-empty deltas in order and closes
with a `done` event whose answer is the tag-stripped concatenation of all
deltas seen so far. -/
theorem streamSessionLoop_eq :
    ∀ (ds parts : List (List Char)),
      streamSessionLoop ds parts =
        (ds.filter (fun d => d ≠ [])).map SseEvent.delta ++
          [SseEvent.done (sessionDoneAnswer (parts.flatten ++ ds.flatten))] := by
  intro ds
  induction ds with
  | nil =>
    intro parts
    simp [streamSessionLoop]
  | cons d rest ih =>
    intro parts
    by_cases hd : d = []
    · subst hd
      simp only [streamSessionLoop, if_pos rfl]
      rw [ih parts]
      simp
    · simp only [streamSessionLoop, if_neg hd]
      rw [ih (parts ++ [d])]
      simp [hd, List.append_assoc]

/-- Concatenating the fixed-size pieces restores the text. -/
theorem chunksOfAux_flatten (size : Nat) (hs : size ≠ 0) :
    ∀ (fuel : Nat) (l : List Char), l.length ≤ fuel →
      (chunksOfAux size fuel l).flatten = l := by
  intro fuel
  induction fuel with
  | zero =>
    intro l hl
    cases l with
    | nil => rfl
    | cons c rest => simp at hl
  | succ fuel ih =>
    intro l hl
    cases l with
    | nil => rfl
    | cons c rest =>
      simp only [chunksOfAux, List.flatten_cons]
      rw [ih ((c :: rest).drop size)
        (by simp only [List.length_drop, List.length_cons] at hl ⊢; omega)]
      exact List.take_append_drop size (c :: rest)

/-- **C3 (amended).** A session streaming chat call that does not error
emits exactly one `meta` event first, then the non-empty generation
deltas in source order, then exactly one `done` event last, whose answer
is the concatenation of the delta contents passed through the service's
inline-source-tag normalization (`sessionDoneAnswer`); the non-reranked
session stream route re-chunks the final answer, emitting at least one
delta whose concatenation equals the `done` answer exactly. -/
theorem sessionStream_event_shape :
    (∀ deltas : List (List Char),
      streamChatSession deltas =
        SseEvent.meta ::
          ((deltas.filter (fun d => d ≠ [])).map SseEvent.delta ++
            [SseEvent.done (sessionDoneAnswer deltas.flatten)])) ∧
    (∀ answer : List Char,
      ragSessionStreamEvents answer =
        SseEvent.meta ::
          ((chunkTextPieces answer 20).map SseEvent.delta ++
            [SseEvent.done answer]) ∧
      (chunkTextPieces answer 20).flatten = answer ∧
      chunkTextPieces answer 20 ≠ []) := by
  constructor
  · intro deltas
    unfold streamChatSession
    rw [streamSessionLoop_eq deltas []]
    simp
  · intro answer
    refine ⟨rfl, ?_, ?_⟩
    · unfold chunkTextPieces
      cases ha : answer with
      | nil => rfl
      | cons c rest =>
        rw [if_neg (by simp)]
        unfold chunksOf
        exact chunksOfAux_flatten 20 (by omega) _ _ le_rfl
    · unfold chunkTextPieces
      cases answer with
      | nil => simp
      | cons c rest =>
        rw [if_neg (by simp)]
        unfold chunksOf
        simp [chunksOfAux]

/-- Counterexample to C3 as stated: the reranked session stream can emit
zero deltas, and with a citation marker in the generated text the `done`
answer differs from the concatenation of the delta contents. -/
theorem sessionStream_counterexample :
    streamChatSession ["See [S1].".toList] =
      [SseEvent.meta, SseEvent.delta "See [S1].".toList,
        SseEvent.done "See .".toList] ∧
    "See .".toList ≠ "See [S1].".toList ∧
    streamChatSession [] = [SseEvent.meta, SseEvent.done []] := by
  decide

/-! ## C7 — reranked source ids and preserved ranks -/

/-- Every row selected by the rerank loop is a hybrid candidate paired
with the relevance score of one of the reranker rows. -/
theorem rerankSelect_provenance (cands : List HybridSource) (topN : Nat) :
    ∀ (rows : List (Int × ℚ)) (consumed : List Nat) (count : Nat),
      ∀ s ∈ rerankSelect cands topN rows consumed count,
        ∃ row ∈ rows, ∃ h : row.1.toNat < cands.length,
          s = mkRerankedSource (cands.get ⟨row.1.toNat, h⟩) row.2 := by
  intro rows
  induction rows with
  | nil => intro consumed count s hs; simp [rerankSelect] at hs
  | cons row rest ih =>
    intro consumed count s hs
    obtain ⟨idx, score⟩ := row
    simp only [rerankSelect] at hs
    split at hs
    · rename_i hrange
      split at hs
      · rcases ih consumed count s hs with ⟨r, hr, hlt, hsel⟩
        exact ⟨r, List.mem_cons_of_mem _ hr, hlt, hsel⟩
      · split at hs
        · simp only [List.mem_singleton] at hs
          exact ⟨(idx, score), List.mem_cons_self _ _, hrange.2, hs⟩
        · rcases List.mem_cons.mp hs with hs1 | hs1
          · exact ⟨(idx, score), List.mem_cons_self _ _, hrange.2, hs1⟩
          · rcases ih _ _ s hs1 with ⟨r, hr, hlt, hsel⟩
            exact ⟨r, List.mem_cons_of_mem _ hr, hlt, hsel⟩
    · rcases ih consumed count s hs with ⟨r, hr, hlt, hsel⟩
      exact ⟨r, List.mem_cons_of_mem _ hr, hlt, hsel⟩

/-- Projections of the final rank assignment: source ids are `S1..Sk` in
order, ranks are `1..k`, and every other field comes from the underlying
row unchanged. -/
theorem assignSourceIds_proj (base : List RerankedSourceChunk) :
    (assignSourceIds base).map (fun s => s.source_id) =
      (List.range base.length).map (fun i => "S" ++ Nat.repr (i + 1)) ∧
    (assignSourceIds base).map (fun s => s.rank) =
      (List.range base.length).map (fun i => i + 1) ∧
    (∀ s' ∈ assignSourceIds base, ∃ s ∈ base,
      s'.original_rank = s.original_rank ∧ s'.chunk_key = s.chunk_key ∧
      s'.dense_score = s.dense_score ∧ s'.sparse_score = s.sparse_score ∧
      s'.hybrid_score = s.hybrid_score ∧ s'.rerank_score = s.rerank_score) := by
  unfold assignSourceIds
  rw [List.mapIdx_eq_enum_map]
  refine ⟨?_, ?_, ?_⟩
  · rw [List.map_map]
    have : ((fun s => RerankedSourceChunk.source_id s) ∘
        Function.uncurry (fun (i : Nat) (s : RerankedSourceChunk) =>
          { s with rank := i + 1, source_id := "S" ++ Nat.repr (i + 1) })) =
        (fun i => "S" ++ Nat.repr (i + 1)) ∘ Prod.fst := by
      funext p
      rfl
    rw [this, ← List.map_map, List.enum_map_fst]
  · rw [List.map_map]
    have : ((fun s => RerankedSourceChunk.rank s) ∘
        Function.uncurry (fun (i : Nat) (s : RerankedSourceChunk) =>
          { s with rank := i + 1, source_id := "S" ++ Nat.repr (i + 1) })) =
        (fun i => i + 1) ∘ Prod.fst := by
      funext p
      rfl
    rw [this, ← List.map_map, List.enum_map_fst]
  · intro s' hs'
    rcases List.mem_map.mp hs' with ⟨p, hp, hup⟩
    refine ⟨p.2, ?_, ?_⟩
    · exact List.snd_mem_of_mem_enum hp
    · rw [← hup]
      exact ⟨rfl, rfl, rfl, rfl, rfl, rfl⟩

/-- Every pre-assignment row of the reranked final list comes from a
hybrid candidate, with the rerank score of its selecting row or 0 on the
fallback path. -/
theorem rerankedBase_provenance (cands : List HybridSource)
    (rows : List (Int × ℚ)) (topK : Nat) (c0 : HybridSource)
    (cs : List HybridSource) (hc : cands = c0 :: cs) :
    ∀ s ∈ (match rerankSelect cands (min topK cands.length) rows [] 0 with
      | [] => (cands.take (min topK cands.length)).map
          (fun c => mkRerankedSource c 0)
      | _ :: _ => rerankSelect cands (min topK cands.length) rows [] 0),
      ∃ c ∈ cands, s = mkRerankedSource c 0 ∨
        ∃ row ∈ rows, s = mkRerankedSource c row.2 := by
  intro s hs
  split at hs
  · rcases List.mem_map.mp hs with ⟨c, hcmem, hcs⟩
    exact ⟨c, List.mem_of_mem_take hcmem, Or.inl hcs.symm⟩
  · rcases rerankSelect_provenance cands _ rows [] 0 _ hs with
      ⟨row, hrow, hltc, hsrc⟩
    exact ⟨cands.get ⟨row.1.toNat, hltc⟩, List.get_mem _ _ hltc,
      Or.inr ⟨row, hrow, hsrc⟩⟩

/-- **C7.** In every reranked retrieval the final sources carry
`source_id = "S1".."Sk"` in final order with contiguous ranks starting at
1, and each source preserves the hybrid candidate it came from — its
chunk key, scores, and pre-rerank rank (`original_rank`) — together with
its rerank score (the relevance score of the reranker row that selected
it, or 0 on the no-selection fallback). -/
theorem rerankedSources_ids_and_ranks (cands : List HybridSource)
    (rows : List (Int × ℚ)) (topK : Nat) :
    (rerankedFinalSources cands rows topK).map (fun s => s.source_id) =
      (List.range (rerankedFinalSources cands rows topK).length).map
        (fun i => "S" ++ Nat.repr (i + 1)) ∧
    (rerankedFinalSources cands rows topK).map (fun s => s.rank) =
      (List.range (rerankedFinalSources cands rows topK).length).map
        (fun i => i + 1) ∧
    (∀ s ∈ rerankedFinalSources cands rows topK, ∃ c ∈ cands,
      s.original_rank = c.rank ∧ s.chunk_key = c.chunk_key ∧
      s.dense_score = c.dense_score ∧ s.sparse_score = c.sparse_score ∧
      s.hybrid_score = c.hybrid_score ∧
      (s.rerank_score = 0 ∨ ∃ row ∈ rows, s.rerank_score = row.2)) := by
  match hc : cands with
  | [] =>
    refine ⟨rfl, rfl, ?_⟩
    intro s hs
    simp [rerankedFinalSources] at hs
  | c0 :: cs =>
    have hout : rerankedFinalSources (c0 :: cs) rows topK =
        assignSourceIds
          (match rerankSelect (c0 :: cs) (min topK (c0 :: cs).length)
              rows [] 0 with
            | [] => ((c0 :: cs).take (min topK (c0 :: cs).length)).map
                (fun c => mkRerankedSource c 0)
            | _ :: _ => rerankSelect (c0 :: cs) (min topK (c0 :: cs).length)
                rows [] 0) := rfl
    rw [hout]
    obtain ⟨hids, hranks, hfields⟩ := assignSourceIds_proj
      (match rerankSelect (c0 :: cs) (min topK (c0 :: cs).length) rows [] 0 with
        | [] => ((c0 :: cs).take (min topK (c0 :: cs).length)).map
            (fun c => mkRerankedSource c 0)
        | _ :: _ => rerankSelect (c0 :: cs) (min topK (c0 :: cs).length)
            rows [] 0)
    have hlen : (assignSourceIds
        (match rerankSelect (c0 :: cs) (min topK (c0 :: cs).length)
            rows [] 0 with
          | [] => ((c0 :: cs).take (min topK (c0 :: cs).length)).map
              (fun c => mkRerankedSource c 0)
          | _ :: _ => rerankSelect (c0 :: cs) (min topK (c0 :: cs).length)
              rows [] 0)).length =
        (match rerankSelect (c0 :: cs) (min topK (c0 :: cs).length)
            rows [] 0 with
          | [] => ((c0 :: cs).take (min topK (c0 :: cs).length)).map
              (fun c => mkRerankedSource c 0)
          | _ :: _ => rerankSelect (c0 :: cs) (min topK (c0 :: cs).length)
              rows [] 0).length := by
      unfold assignSourceIds
      exact List.length_mapIdx
    refine ⟨by rw [hlen]; exact hids, by rw [hlen]; exact hranks, ?_⟩
    intro s hs
    rcases hfields s hs with ⟨b, hb, hor, hck, hds, hss, hhs, hrs⟩
    rcases rerankedBase_provenance (c0 :: cs) rows topK c0 cs rfl b hb with
      ⟨c, hcmem, hform⟩
    refine ⟨c, hcmem, ?_⟩
    rcases hform with hform | ⟨row, hrow, hform⟩
    · rw [hform] at hor hck hds hss hhs hrs
      exact ⟨hor, hck, hds, hss, hhs, Or.inl hrs⟩
    · rw [hform] at hor hck hds hss hhs hrs
      exact ⟨hor, hck, hds, hss, hhs, Or.inr ⟨row, hrow, hrs⟩⟩

/-- Witness for C7 at a concrete retrieval: a single hybrid candidate of
hybrid rank 3 selected by the reranker row `(0, 1/2)` yields the one final
source with `source_id = "S1"`, preserving `original_rank = 3`. -/
theorem rerankedSources_ids_and_ranks_witness :
    (rerankedFinalSources [⟨"k1", "d1", "Doc", 0, [], "t".toList, 1, 0, 1, 3⟩]
        [((0 : Int), (1 : ℚ) / 2)] 1).map (fun s => s.source_id) =
      (List.range (rerankedFinalSources
          [⟨"k1", "d1", "Doc", 0, [], "t".toList, 1, 0, 1, 3⟩]
          [((0 : Int), (1 : ℚ) / 2)] 1).length).map
        (fun i => "S" ++ Nat.repr (i + 1)) ∧
    (∃ c ∈ [(⟨"k1", "d1", "Doc", 0, [], "t".toList, 1, 0, 1, 3⟩ :
        HybridSource)],
      (⟨"k1", "d1", "Doc", 0, [], "t".toList, "S1", 1, 1, 0, 1, 3,
        (1 : ℚ) / 2⟩ : RerankedSourceChunk).original_rank = c.rank) := by
  have h := rerankedSources_ids_and_ranks
    [⟨"k1", "d1", "Doc", 0, [], "t".toList, 1, 0, 1, 3⟩]
    [((0 : Int), (1 : ℚ) / 2)] 1
  refine ⟨h.1, ?_⟩
  rcases h.2.2 ⟨"k1", "d1", "Doc", 0, [], "t".toList, "S1", 1, 1, 0, 1, 3,
      (1 : ℚ) / 2⟩
      (by
        rw [show rerankedFinalSources
            [⟨"k1", "d1", "Doc", 0, [], "t".toList, 1, 0, 1, 3⟩]
            [((0 : Int), (1 : ℚ) / 2)] 1 =
          [⟨"k1", "d1", "Doc", 0, [], "t".toList, "S1", 1, 1, 0, 1, 3,
            (1 : ℚ) / 2⟩] from rfl]
        exact List.mem_singleton_self _) with ⟨c, hc, hor, _⟩
  exact ⟨c, hc, hor⟩

/-- Witness for C8 at a concrete answer and source set. -/
theorem citationExtract_spec_witness :
    citationExtract "Use [S1] and [S2] and [S1].".toList ["S1".toList] =
      firstSeenFilteredDedup
        (findCitations "Use [S1] and [S2] and [S1].".toList) ["S1".toList] ∧
    "S1".toList ∈ ["S1".toList] ∧
    "S1".toList ∈ findCitations "Use [S1] and [S2] and [S1].".toList := by
  have h := citationExtract_spec "Use [S1] and [S2] and [S1].".toList
    ["S1".toList]
  exact ⟨h.1, h.2.2 "S1".toList (by decide)⟩

/-! ## C6 — BM25 sparse scoring -/

/-- A fold that adds a per-element amount equals the starting value plus
the sum of those amounts. -/
theorem foldl_add_of {α : Type} (step : ℚ → α → ℚ) (g : α → ℚ)
    (hsg : ∀ acc x, step acc x = acc + g x) :
    ∀ (l : List α) (acc : ℚ), l.foldl step acc = acc + (l.map g).sum := by
  intro l
  induction l with
  | nil => intro acc; simp
  | cons x rest ih =>
    intro acc
    rw [List.foldl_cons, ih, hsg]
    simp [add_assoc]

/-- When every query-counter term is absent from the document, the BM25
score is zero. -/
theorem bm25DocScore_zero (lnQ : ℚ → ℚ) (docFreq : List Char → Nat)
    (N : Nat) (avgLen : ℚ) (tokens : List (List Char)) :
    ∀ (qc : List (List Char × Nat)),
      (∀ tq ∈ qc, tokens.count tq.1 = 0) →
      bm25DocScore lnQ qc docFreq N avgLen tokens = 0 := by
  have hgen : ∀ (qc : List (List Char × Nat)) (acc : ℚ),
      (∀ tq ∈ qc, tokens.count tq.1 = 0) →
      qc.foldl (fun acc tq =>
        let freq := tokens.count tq.1
        if freq = 0 then acc
        else
          let nt := docFreq tq.1
          let idf := lnQ (1 + ((N : ℚ) - (nt : ℚ) + 1 / 2) / ((nt : ℚ) + 1 / 2))
          let norm := (freq : ℚ) + (3 : ℚ) / 2 *
            (1 - (3 : ℚ) / 4 + (3 : ℚ) / 4 * (((tokens.length : ℚ)) / avgLen))
          acc + (tq.2 : ℚ) * idf * ((freq : ℚ) * ((3 : ℚ) / 2 + 1)) /
            max norm (1 / 1000000000)) acc = acc := by
    intro qc
    induction qc with
    | nil => intro acc _; rfl
    | cons tq rest ih =>
      intro acc h
      rw [List.foldl_cons]
      have h0 : tokens.count tq.1 = 0 := h tq (List.mem_cons_self _ _)
      simp only [h0, if_pos rfl]
      exact ih acc (fun x hx => h x (List.mem_cons_of_mem _ hx))
  intro qc h
  exact hgen qc 0 h

/-- The per-document score computed by `score_sparse` equals the claim's
BM25 formula summed over the distinct query terms. -/
theorem bm25DocScore_eq_spec (lnQ : ℚ → ℚ) (query : List Char)
    (candidates : List RetrievalChunkCandidate) (tokens : List (List Char)) :
    bm25DocScore lnQ (bm25QueryCounter query) (bm25DocFreq candidates)
      candidates.length (bm25AvgLen candidates) tokens =
    bm25SpecScore lnQ (tokenize query) candidates tokens := by
  unfold bm25DocScore bm25SpecScore bm25QueryCounter bm25DocFreq bm25AvgLen
  rw [foldl_add_of _
    (fun tq : List Char × Nat =>
      let freq := tokens.count tq.1
      if freq = 0 then 0
      else
        let nt := ((candidates.map (fun c => tokenize c.text)).filter
          (fun toks => tq.1 ∈ toks)).length
        (tq.2 : ℚ) *
          lnQ (1 + ((candidates.length : ℚ) - (nt : ℚ) + 1 / 2) / ((nt : ℚ) + 1 / 2)) *
          ((freq : ℚ) * ((3 : ℚ) / 2 + 1)) /
          max ((freq : ℚ) + (3 : ℚ) / 2 *
            (1 - (3 : ℚ) / 4 + (3 : ℚ) / 4 * ((tokens.length : ℚ) /
              (max ((((candidates.map (fun c => tokenize c.text)).map List.length).sum : ℚ) /
                (((candidates.map (fun c => tokenize c.text)).map List.length).length : ℚ)) 1))))
            (1 / 1000000000))
    ?_ _ 0]
  · rw [List.map_map, zero_add]
    congr 1
    apply List.map_congr_left
    intro t ht
    simp only [Function.comp_apply]
    by_cases h0 : tokens.count t = 0
    · simp [h0]
    · simp only [h0, if_neg h0]
      have hdf : ((candidates.map (fun c => tokenize c.text)).filter
          (fun toks => t ∈ toks)).length =
          (candidates.filter (fun c => t ∈ tokenize c.text)).length := by
        rw [List.filter_map, List.length_map]
        rfl
      have hlen : ((candidates.map (fun c => tokenize c.text)).map List.length) =
          candidates.map (fun c => (tokenize c.text).length) := by
        rw [List.map_map]
        rfl
      rw [hdf, hlen]
  · intro acc x
    by_cases h0 : tokens.count x.1 = 0
    · simp [h0]
    · simp only [if_neg h0]

/-- `dict` construction adds at most one entry per pair. -/
theorem assocSet_length_le {α : Type} (l : List (String × α)) (k : String)
    (v : α) : (assocSet l k v).length ≤ l.length + 1 := by
  unfold assocSet
  split
  · simp
  · simp

/-- `dict(pairs)` has at most as many entries as pairs. -/
theorem pyDict_length_le :
    ∀ (ps acc : List (String × ℚ)),
      (ps.foldl (fun acc kv => assocSet acc kv.1 kv.2) acc).length ≤
        acc.length + ps.length := by
  intro ps
  induction ps with
  | nil => intro acc; simp
  | cons kv rest ih =>
    intro acc
    rw [List.foldl_cons]
    have h1 := ih (assocSet acc kv.1 kv.2)
    have h2 := assocSet_length_le acc kv.1 kv.2
    simp only [List.length_cons]
    omega

/-- Entries of an association-list update come from the list or are the
new binding. -/
theorem assocSet_mem {α : Type} (l : List (String × α)) (k : String) (v : α)
    (kv : String × α) (h : kv ∈ assocSet l k v) : kv ∈ l ∨ kv = (k, v) := by
  unfold assocSet at h
  split at h
  · rcases List.mem_map.mp h with ⟨kv0, hkv0, hf⟩
    by_cases hk : kv0.1 = k
    · rw [if_pos hk] at hf
      exact Or.inr hf.symm
    · rw [if_neg hk] at hf
      exact Or.inl (hf ▸ hkv0)
  · rcases List.mem_append.mp h with h1 | h1
    · exact Or.inl h1
    · simp only [List.mem_singleton] at h1
      exact Or.inr h1

/-- Entries of `dict(pairs)` come from the pairs. -/
theorem pyDict_mem :
    ∀ (ps acc : List (String × ℚ)) (kv : String × ℚ),
      kv ∈ ps.foldl (fun acc kv => assocSet acc kv.1 kv.2) acc →
      kv ∈ acc ∨ kv ∈ ps := by
  intro ps
  induction ps with
  | nil => intro acc kv h; exact Or.inl h
  | cons hd rest ih =>
    intro acc kv h
    rw [List.foldl_cons] at h
    rcases ih (assocSet acc hd.1 hd.2) kv h with h1 | h1
    · rcases assocSet_mem acc hd.1 hd.2 kv h1 with h2 | h2
      · exact Or.inl h2
      · exact Or.inr (by rw [h2]; exact List.mem_cons_self _ _)
    · exact Or.inr (List.mem_cons_of_mem _ h1)

/-- **C6.** For every query and candidate list, `score_sparse` returns at
most `top_k` entries; every returned entry carries a strictly positive
score that equals the claim's BM25 formula (parameters `k1 = 3/2`,
`b = 3/4`, average length floored at 1, the stated idf and per-term
contribution) for some candidate whose `chunk_key` is the entry's key;
the empty candidate list yields the empty map, and so does a query none of
whose terms occurs in any candidate. -/
theorem scoreSparse_spec (lnQ : ℚ → ℚ) (query : List Char)
    (candidates : List RetrievalChunkCandidate) (topK : Nat) :
    (scoreSparse lnQ query candidates topK).length ≤ topK ∧
    (∀ kv ∈ scoreSparse lnQ query candidates topK,
      0 < kv.2 ∧ ∃ c ∈ candidates, kv.1 = c.chunk_key ∧
        kv.2 = bm25SpecScore lnQ (tokenize query) candidates (tokenize c.text)) ∧
    scoreSparse lnQ query [] topK = [] ∧
    ((∀ c ∈ candidates, ∀ t ∈ tokenize query, t ∉ tokenize c.text) →
      scoreSparse lnQ query candidates topK = []) := by
  have hscored : ∀ kv ∈ scoreSparseScored lnQ query candidates,
      0 < kv.2 ∧ ∃ c ∈ candidates, kv.1 = c.chunk_key ∧
        kv.2 = bm25SpecScore lnQ (tokenize query) candidates (tokenize c.text) := by
    intro kv hkv
    unfold scoreSparseScored at hkv
    rw [show candidates.zip (candidates.map (fun c => tokenize c.text)) =
        candidates.map (fun c => (c, tokenize c.text)) from by
      have := List.zip_map' (fun c : RetrievalChunkCandidate => c)
        (fun c => tokenize c.text) candidates
      simpa using this] at hkv
    rw [List.filterMap_map] at hkv
    rcases List.mem_filterMap.mp hkv with ⟨c, hc, hf⟩
    simp only [Function.comp_apply] at hf
    split at hf
    · rename_i hpos
      have hkv' : kv = (c.chunk_key,
          bm25DocScore lnQ (bm25QueryCounter query) (bm25DocFreq candidates)
            candidates.length (bm25AvgLen candidates) (tokenize c.text)) := by
        simpa using hf.symm
      subst hkv'
      refine ⟨hpos, c, hc, rfl, ?_⟩
      exact bm25DocScore_eq_spec lnQ query candidates (tokenize c.text)
    · exact absurd hf (by simp)
  refine ⟨?_, ?_, rfl, ?_⟩
  · by_cases hc : candidates = []
    · simp [scoreSparse, hc]
    · by_cases hq : tokenize query = []
      · simp [scoreSparse, hc, hq]
      · unfold scoreSparse
        rw [if_neg hc, if_neg hq]
        unfold pyDict
        have h1 := pyDict_length_le
          (((scoreSparseScored lnQ query candidates).mergeSort
            (fun a b => decide (b.2 ≤ a.2))).take topK) []
        have h2 : (((scoreSparseScored lnQ query candidates).mergeSort
            (fun a b => decide (b.2 ≤ a.2))).take topK).length ≤ topK := by
          simp [List.length_take]
        simp only [List.length_nil, Nat.zero_add] at h1
        omega
  · intro kv hkv
    unfold scoreSparse at hkv
    by_cases hc : candidates = []
    · rw [if_pos hc] at hkv
      exact absurd hkv (List.not_mem_nil kv)
    · rw [if_neg hc] at hkv
      by_cases hq : tokenize query = []
      · rw [if_pos hq] at hkv
        exact absurd hkv (List.not_mem_nil kv)
      · rw [if_neg hq] at hkv
        unfold pyDict at hkv
        rcases pyDict_mem _ [] kv hkv with h1 | h1
        · exact absurd h1 (List.not_mem_nil kv)
        · have h2 : kv ∈ (scoreSparseScored lnQ query candidates).mergeSort
              (fun a b => decide (b.2 ≤ a.2)) :=
            (List.take_sublist _ _).mem h1
          have h3 : kv ∈ scoreSparseScored lnQ query candidates :=
            (List.mergeSort_perm _ _).mem_iff.mp h2
          exact hscored kv h3
  · intro hnone
    unfold scoreSparse
    by_cases hc : candidates = []
    · rw [if_pos hc]
    · rw [if_neg hc]
      by_cases hq : tokenize query = []
      · rw [if_pos hq]
      · rw [if_neg hq]
        have hempty : scoreSparseScored lnQ query candidates = [] := by
          unfold scoreSparseScored
          rw [List.filterMap_eq_nil]
          intro ct hct
          have hc2 : ct.1 ∈ candidates := List.of_mem_zip hct |>.1
          have hzero : bm25DocScore lnQ (bm25QueryCounter query)
              (bm25DocFreq candidates) candidates.length
              (bm25AvgLen candidates) ct.2 = 0 := by
            apply bm25DocScore_zero
            intro tq htq
            unfold bm25QueryCounter at htq
            rcases List.mem_map.mp htq with ⟨t, ht, hteq⟩
            rcases dedup_foldl_mem _ [] t ht with h1 | h1
            · exact absurd h1 (List.not_mem_nil t)
            · have hct2 : ct.2 = tokenize ct.1.text := by
                rw [show candidates.zip (candidates.map
                    (fun c => tokenize c.text)) =
                  candidates.map (fun c => (c, tokenize c.text)) from by
                  have := List.zip_map' (fun c : RetrievalChunkCandidate => c)
                    (fun c => tokenize c.text) candidates
                  simpa using this] at hct
                rcases List.mem_map.mp hct with ⟨c, hc3, hceq⟩
                rw [← hceq]
              rw [hct2, ← hteq]
              simp only []
              rw [List.count_eq_zero]
              exact hnone ct.1 hc2 t h1
          simp [hzero]
        rw [hempty]
        simp [pyDict]

/-! ## C5 — hybrid fusion -/

/-- A lookup succeeds exactly for the keys of the map. -/
theorem lookupScore_isSome_iff (m : List (String × ℚ)) (k : String) :
    (lookupScore m k).isSome ↔ k ∈ m.map Prod.fst := by
  unfold lookupScore
  cases hf : m.find? (fun kv => kv.1 = k) with
  | none =>
    simp only [Option.isSome_none, Bool.false_eq_true, false_iff]
    intro hk
    rcases List.mem_map.mp hk with ⟨kv, hkv, hkeq⟩
    have : (m.find? (fun kv => kv.1 = k)).isSome := by
      rw [List.find?_isSome]
      exact ⟨kv, hkv, by simp [hkeq]⟩
    rw [hf] at this
    simp at this
  | some kv =>
    simp only [Option.isSome_some, true_iff]
    have hm := List.mem_of_find?_eq_some hf
    have hp := List.find?_some hf
    simp only [decide_eq_true_eq] at hp
    exact List.mem_map.mpr ⟨kv, hm, hp⟩

/-- With duplicate-free keys, lookup returns the value of the unique
binding. -/
theorem lookupScore_eq_of_mem_nodup (m : List (String × ℚ))
    (hm : (m.map Prod.fst).Nodup) {k : String} {v : ℚ} (h : (k, v) ∈ m) :
    lookupScore m k = some v := by
  induction m with
  | nil => exact absurd h (List.not_mem_nil _)
  | cons kv rest ih =>
    simp only [List.map_cons, List.nodup_cons] at hm
    rcases List.mem_cons.mp h with h1 | h1
    · unfold lookupScore
      rw [List.find?_cons]
      have : (decide (kv.1 = k)) = true := by simp [← h1]
      rw [this]
      simp [← h1]
    · have hk : kv.1 ≠ k := by
        intro he
        exact hm.1 (he ▸ List.mem_map.mpr ⟨(k, v), h1, rfl⟩)
      unfold lookupScore
      rw [List.find?_cons]
      have : (decide (kv.1 = k)) = false := by simp [hk]
      rw [this]
      exact ih hm.2 h1

/-- Lookup of the clamped candidate-restricted score map. -/
theorem lookupScore_fusePositive (scores : List (String × ℚ))
    (candidates : List RetrievalChunkCandidate) (k : String) :
    lookupScore (fusePositive scores candidates) k =
      if k ∈ candidates.map (fun c => c.chunk_key) then
        (lookupScore scores k).map (fun v => max 0 v)
      else
        none := by
  induction scores with
  | nil =>
    unfold fusePositive lookupScore
    simp
  | cons kv rest ih =>
    unfold fusePositive lookupScore at ih ⊢
    rw [List.filterMap_cons]
    by_cases hkv : kv.1 ∈ candidates.map (fun c => c.chunk_key)
    · rw [if_pos hkv]
      by_cases hk : kv.1 = k
      · subst hk
        rw [List.find?_cons, List.find?_cons]
        simp [hkv]
      · have h1 : (decide ((kv.1, max 0 kv.2).1 = k)) = false := by simp [hk]
        have h2 : (decide (kv.1 = k)) = false := by simp [hk]
        rw [List.find?_cons, List.find?_cons]
        simp only [h1, h2]
        exact ih
    · rw [if_neg hkv]
      by_cases hk : kv.1 = k
      · subst hk
        rw [ih, if_neg hkv, List.find?_cons]
        simp [hkv]
      · have h2 : (decide (kv.1 = k)) = false := by simp [hk]
        rw [List.find?_cons]
        simp only [h2]
        exact ih

/-- Keys of the clamped candidate-restricted score map. -/
theorem fusePositive_keys (scores : List (String × ℚ))
    (candidates : List RetrievalChunkCandidate) :
    (fusePositive scores candidates).map Prod.fst =
      (scores.map Prod.fst).filter
        (fun k => k ∈ candidates.map (fun c => c.chunk_key)) := by
  induction scores with
  | nil => rfl
  | cons kv rest ih =>
    unfold fusePositive at ih ⊢
    rw [List.filterMap_cons]
    by_cases hkv : kv.1 ∈ candidates.map (fun c => c.chunk_key)
    · rw [if_pos hkv]
      simp only [List.map_cons, List.filter_cons]
      rw [ih]
      simp [hkv]
    · rw [if_neg hkv]
      simp only [List.map_cons, List.filter_cons]
      rw [ih]
      simp [hkv]

/-- `foldr max 0` is non-negative. -/
theorem foldr_max_nonneg (l : List ℚ) : 0 ≤ l.foldr max 0 := by
  induction l with
  | nil => exact le_refl 0
  | cons x rest ih => exact le_trans ih (le_max_right x _)

/-- Every member is at most `foldr max 0`. -/
theorem le_foldr_max (l : List ℚ) (x : ℚ) (hx : x ∈ l) :
    x ≤ l.foldr max 0 := by
  induction l with
  | nil => exact absurd hx (List.not_mem_nil x)
  | cons y rest ih =>
    rcases List.mem_cons.mp hx with h | h
    · exact h ▸ le_max_left _ _
    · exact le_trans (ih h) (le_max_right _ _)

/-- `foldr max 0` is at most any non-negative upper bound. -/
theorem foldr_max_le (l : List ℚ) (b : ℚ) (hb : 0 ≤ b)
    (h : ∀ x ∈ l, x ≤ b) : l.foldr max 0 ≤ b := by
  induction l with
  | nil => exact hb
  | cons x rest ih =>
    refine max_le (h x (List.mem_cons_self _ _)) ?_
    exact ih (fun y hy => h y (List.mem_cons_of_mem _ hy))

/-- The maximum used by `fuse` equals the claim's maximum of the clamped
score set taken over the candidates. -/
theorem fuseMax_eq_specMax (scores : List (String × ℚ))
    (candidates : List RetrievalChunkCandidate)
    (hS : (scores.map Prod.fst).Nodup) :
    fuseMax scores candidates = specMaxScore scores candidates := by
  unfold fuseMax specMaxScore
  refine le_antisymm ?_ ?_
  · refine foldr_max_le _ _ (foldr_max_nonneg _) ?_
    intro x hx
    rcases List.mem_map.mp hx with ⟨kv, hkv, hx2⟩
    unfold fusePositive at hkv
    rcases List.mem_filterMap.mp hkv with ⟨kv0, hkv0, hf⟩
    split at hf
    · rename_i hin
      have hkv' : kv = (kv0.1, max 0 kv0.2) := by simpa using hf.symm
      rcases List.mem_map.mp hin with ⟨c, hc, hck⟩
      have hlook : lookupScore scores kv0.1 = some kv0.2 :=
        lookupScore_eq_of_mem_nodup scores hS (by simpa using hkv0)
      have hclamp : clampedScore scores c.chunk_key = max 0 kv0.2 := by
        unfold clampedScore
        rw [hck, hlook]
        rfl
      have hmem : clampedScore scores c.chunk_key ∈
          candidates.map (fun c => clampedScore scores c.chunk_key) :=
        List.mem_map.mpr ⟨c, hc, rfl⟩
      rw [← hx2, hkv']
      show max 0 kv0.2 ≤ _
      rw [← hclamp]
      exact le_foldr_max _ _ hmem
    · exact absurd hf (by simp)
  · refine foldr_max_le _ _ (foldr_max_nonneg _) ?_
    intro x hx
    rcases List.mem_map.mp hx with ⟨c, hc, hx2⟩
    unfold clampedScore at hx2
    cases hlook : lookupScore scores c.chunk_key with
    | none =>
      rw [hlook] at hx2
      simp only [Option.getD_none] at hx2
      rw [← hx2]
      simpa using foldr_max_nonneg _
    | some v =>
      rw [hlook] at hx2
      simp only [Option.getD_some] at hx2
      unfold lookupScore at hlook
      cases hf : scores.find? (fun kv => kv.1 = c.chunk_key) with
      | none => rw [hf] at hlook; simp at hlook
      | some kv0 =>
        rw [hf] at hlook
        simp only [Option.some.injEq] at hlook
        have hkm := List.mem_of_find?_eq_some hf
        have hkp := List.find?_some hf
        simp only [decide_eq_true_eq] at hkp
        have hmem : (kv0.1, max 0 kv0.2) ∈ fusePositive scores candidates := by
          unfold fusePositive
          refine List.mem_filterMap.mpr ⟨kv0, hkm, ?_⟩
          rw [if_pos (by rw [hkp]; exact List.mem_map.mpr ⟨c, hc, rfl⟩)]
        have : max 0 kv0.2 ∈ (fusePositive scores candidates).map
            (fun kv => kv.2) := List.mem_map.mpr ⟨_, hmem, rfl⟩
        rw [← hx2, ← hlook]
        exact le_foldr_max _ _ this

/-- With duplicate-free candidate keys, `candidate_map[key]` retrieves
the unique candidate carrying the key. -/
theorem candidateFor_eq (candidates : List RetrievalChunkCandidate)
    (hC : (candidates.map (fun c => c.chunk_key)).Nodup)
    {c : RetrievalChunkCandidate} (hc : c ∈ candidates) :
    candidateFor candidates c.chunk_key = some c := by
  unfold candidateFor
  suffices h : candidates.filter (fun c' => c'.chunk_key = c.chunk_key) = [c] by
    rw [h]
    rfl
  induction candidates with
  | nil => exact absurd hc (List.not_mem_nil c)
  | cons c0 rest ih =>
    simp only [List.map_cons, List.nodup_cons] at hC
    rcases List.mem_cons.mp hc with h1 | h1
    · subst h1
      rw [List.filter_cons]
      simp only [decide_True, if_true]
      have hrest : rest.filter (fun c' => c'.chunk_key = c.chunk_key) = [] := by
        rw [List.filter_eq_nil]
        intro c' hc'
        simp only [decide_eq_true_eq]
        intro he
        exact hC.1 (he ▸ List.mem_map.mpr ⟨c', hc', rfl⟩)
      simp [hrest]
    · have hne : c0.chunk_key ≠ c.chunk_key := by
        intro he
        exact hC.1 (he ▸ List.mem_map.mpr ⟨c, h1, rfl⟩)
      rw [List.filter_cons]
      have : (decide (c0.chunk_key = c.chunk_key)) = false := by simp [hne]
      rw [this]
      simp only [Bool.false_eq_true, if_false]
      exact ih hC.2 h1

/-- Lexicographic triple comparison is transitive. -/
theorem tripleLexLe_trans {x y z : ℚ × ℚ × ℚ} (h1 : tripleLexLe x y)
    (h2 : tripleLexLe y z) : tripleLexLe x z := by
  unfold tripleLexLe at h1 h2 ⊢
  rcases h1 with h1 | ⟨h1e, h1r⟩
  · rcases h2 with h2 | ⟨h2e, _⟩
    · exact Or.inl (lt_trans h1 h2)
    · exact Or.inl (h2e ▸ h1)
  · rcases h2 with h2 | ⟨h2e, h2r⟩
    · exact Or.inl (h1e ▸ h2)
    · refine Or.inr ⟨h1e.trans h2e, ?_⟩
      rcases h1r with h1r | ⟨h1re, h1rr⟩
      · rcases h2r with h2r | ⟨h2re, _⟩
        · exact Or.inl (lt_trans h1r h2r)
        · exact Or.inl (h2re ▸ h1r)
      · rcases h2r with h2r | ⟨h2re, h2rr⟩
        · exact Or.inl (h1re ▸ h2r)
        · exact Or.inr ⟨h1re.trans h2re, le_trans h1rr h2rr⟩

/-- Lexicographic triple comparison is total. -/
theorem tripleLexLe_total (x y : ℚ × ℚ × ℚ) :
    tripleLexLe x y ∨ tripleLexLe y x := by
  unfold tripleLexLe
  rcases lt_trichotomy x.1 y.1 with h | h | h
  · exact Or.inl (Or.inl h)
  · rcases lt_trichotomy x.2.1 y.2.1 with h2 | h2 | h2
    · exact Or.inl (Or.inr ⟨h, Or.inl h2⟩)
    · rcases le_total x.2.2 y.2.2 with h3 | h3
      · exact Or.inl (Or.inr ⟨h, Or.inr ⟨h2, h3⟩⟩)
      · exact Or.inr (Or.inr ⟨h.symm, Or.inr ⟨h2.symm, h3⟩⟩)
    · exact Or.inr (Or.inr ⟨h.symm, Or.inl h2⟩)
  · exact Or.inr (Or.inl h)

/-- The `fuse` comparator is transitive (Boolean form). -/
theorem fuseLe_trans (a b c : RankedChunkCandidate)
    (h1 : fuseLe a b = true) (h2 : fuseLe b c = true) : fuseLe a c = true := by
  unfold fuseLe at h1 h2 ⊢
  rw [decide_eq_true_eq] at h1 h2 ⊢
  exact tripleLexLe_trans h2 h1

/-- The `fuse` comparator is total (Boolean form). -/
theorem fuseLe_total (a b : RankedChunkCandidate) :
    (fuseLe a b || fuseLe b a) = true := by
  unfold fuseLe
  rcases tripleLexLe_total (rankedTriple b) (rankedTriple a) with h | h <;>
    simp [h]

/-- The keys traversed by `fuse` are a permutation of the participating
candidates' keys. -/
theorem fuseKeys_perm (denseScores sparseScores : List (String × ℚ))
    (candidates : List RetrievalChunkCandidate)
    (hC : (candidates.map (fun c => c.chunk_key)).Nodup)
    (hD : (denseScores.map Prod.fst).Nodup)
    (hS : (sparseScores.map Prod.fst).Nodup) :
    (fuseKeys denseScores sparseScores candidates).Perm
      ((fuseParticipants candidates denseScores sparseScores).map
        (fun c => c.chunk_key)) := by
  have hpk : (fuseParticipants candidates denseScores sparseScores).map
      (fun c => c.chunk_key) =
      (candidates.map (fun c => c.chunk_key)).filter
        (fun k => (lookupScore denseScores k).isSome ||
          (lookupScore sparseScores k).isSome) := by
    unfold fuseParticipants
    rw [List.filter_map]
    rfl
  have hnd1 : (fuseKeys denseScores sparseScores candidates).Nodup := by
    unfold fuseKeys
    rw [List.nodup_append]
    refine ⟨?_, ?_, ?_⟩
    · rw [fusePositive_keys]
      exact hD.filter _
    · refine List.Nodup.filter _ ?_
      rw [fusePositive_keys]
      exact hS.filter _
    · intro k hk1 hk2
      have := List.mem_filter.mp hk2
      simp only [decide_not, Bool.not_eq_true', decide_eq_false_iff_not] at this
      exact this.2 hk1
  have hnd2 : ((fuseParticipants candidates denseScores sparseScores).map
      (fun c => c.chunk_key)).Nodup := by
    rw [hpk]
    exact hC.filter _
  rw [List.perm_ext_iff_of_nodup hnd1 hnd2]
  intro k
  unfold fuseKeys
  rw [hpk]
  constructor
  · intro hk
    rcases List.mem_append.mp hk with hk1 | hk1
    · rw [fusePositive_keys] at hk1
      have := List.mem_filter.mp hk1
      refine List.mem_filter.mpr ⟨by simpa using this.2, ?_⟩
      have hks : (lookupScore denseScores k).isSome := by
        rw [lookupScore_isSome_iff]
        exact this.1
      simp [hks]
    · have hmem := (List.mem_filter.mp hk1).1
      rw [fusePositive_keys] at hmem
      have := List.mem_filter.mp hmem
      refine List.mem_filter.mpr ⟨by simpa using this.2, ?_⟩
      have hks : (lookupScore sparseScores k).isSome := by
        rw [lookupScore_isSome_iff]
        exact this.1
      simp [hks]
  · intro hk
    have := List.mem_filter.mp hk
    have hcand : k ∈ candidates.map (fun c => c.chunk_key) := this.1
    have hor : (lookupScore denseScores k).isSome ∨
        (lookupScore sparseScores k).isSome := by
      have h2 := this.2
      simp only [Bool.or_eq_true] at h2
      exact h2
    by_cases hd : k ∈ (fusePositive denseScores candidates).map
        (fun kv => kv.1)
    · exact List.mem_append.mpr (Or.inl hd)
    · refine List.mem_append.mpr (Or.inr ?_)
      refine List.mem_filter.mpr ⟨?_, by simpa using hd⟩
      rcases hor with h1 | h1
      · exfalso
        apply hd
        have : (fusePositive denseScores candidates).map (fun kv => kv.1) =
            (fusePositive denseScores candidates).map Prod.fst := rfl
        rw [this, fusePositive_keys]
        refine List.mem_filter.mpr ⟨?_, by simpa using hcand⟩
        rw [← lookupScore_isSome_iff]
        exact h1
      · have : (fusePositive sparseScores candidates).map (fun kv => kv.1) =
            (fusePositive sparseScores candidates).map Prod.fst := rfl
        rw [this, fusePositive_keys]
        refine List.mem_filter.mpr ⟨?_, by simpa using hcand⟩
        rw [← lookupScore_isSome_iff]
        exact h1

/-- The entry `fuse` builds for a candidate's key is exactly the
claim's fused entry for that candidate. -/
theorem fuseEntryOf_eq_spec (candidates : List RetrievalChunkCandidate)
    (denseScores sparseScores : List (String × ℚ)) (denseWeight : ℚ)
    (hC : (candidates.map (fun c => c.chunk_key)).Nodup)
    (hD : (denseScores.map Prod.fst).Nodup)
    (hS : (sparseScores.map Prod.fst).Nodup)
    {c : RetrievalChunkCandidate} (hc : c ∈ candidates) :
    fuseEntryOf candidates denseScores sparseScores denseWeight c.chunk_key =
      some (fuseSpecEntry denseScores sparseScores denseWeight candidates c) := by
  unfold fuseEntryOf
  rw [candidateFor_eq candidates hC hc]
  have hck : c.chunk_key ∈ candidates.map (fun c => c.chunk_key) :=
    List.mem_map.mpr ⟨c, hc, rfl⟩
  have hdr : (lookupScore (fusePositive denseScores candidates)
      c.chunk_key).getD 0 = clampedScore denseScores c.chunk_key := by
    rw [lookupScore_fusePositive, if_pos hck]
    unfold clampedScore
    cases lookupScore denseScores c.chunk_key <;> simp
  have hsr : (lookupScore (fusePositive sparseScores candidates)
      c.chunk_key).getD 0 = clampedScore sparseScores c.chunk_key := by
    rw [lookupScore_fusePositive, if_pos hck]
    unfold clampedScore
    cases lookupScore sparseScores c.chunk_key <;> simp
  have hmd := fuseMax_eq_specMax denseScores candidates hD
  have hms := fuseMax_eq_specMax sparseScores candidates hS
  unfold fuseSpecEntry
  simp only [Option.map_some']
  congr 1
  simp only [hdr, hsr, hmd, hms]

/-- Applying the key-indexed entry builder along the participants' keys
recovers the per-candidate spec entries. -/
theorem filterMap_entry_keys (candidates : List RetrievalChunkCandidate)
    (denseScores sparseScores : List (String × ℚ)) (denseWeight : ℚ)
    (hC : (candidates.map (fun c => c.chunk_key)).Nodup)
    (hD : (denseScores.map Prod.fst).Nodup)
    (hS : (sparseScores.map Prod.fst).Nodup) :
    ∀ (l : List RetrievalChunkCandidate), (∀ c ∈ l, c ∈ candidates) →
      (l.map (fun c => c.chunk_key)).filterMap
        (fuseEntryOf candidates denseScores sparseScores denseWeight) =
      l.map (fuseSpecEntry denseScores sparseScores denseWeight candidates) := by
  intro l
  induction l with
  | nil => intro _; rfl
  | cons c rest ih =>
    intro hmem
    rw [List.map_cons, List.filterMap_cons,
      fuseEntryOf_eq_spec candidates denseScores sparseScores denseWeight
        hC hD hS (hmem c (List.mem_cons_self _ _))]
    rw [List.map_cons, ih (fun x hx => hmem x (List.mem_cons_of_mem _ hx))]

/-- **C5.** For every candidate list with duplicate-free chunk keys,
duplicate-free dense and sparse score maps, `top_k`, and
`dense_weight ∈ [0, 1]`, `fuse` returns the first `top_k` entries of a
list that is sorted descending by the lexicographic triple
`(hybrid_score, dense_score, sparse_score)` and is a permutation of the
fused entries of exactly those candidates whose key appears in at least
one score map, each entry carrying the clamped raw scores and
`hybrid_score = dense_weight * dense_norm + (1 - dense_weight) * sparse_norm`
with each norm the clamped score divided by its score set's own maximum
(0 when that maximum is 0). -/
theorem fuse_spec (candidates : List RetrievalChunkCandidate)
    (denseScores sparseScores : List (String × ℚ)) (topK : Nat)
    (denseWeight : ℚ)
    (hC : (candidates.map (fun c => c.chunk_key)).Nodup)
    (hD : (denseScores.map Prod.fst).Nodup)
    (hS : (sparseScores.map Prod.fst).Nodup)
    (hw0 : 0 ≤ denseWeight) (hw1 : denseWeight ≤ 1) :
    ∃ full : List RankedChunkCandidate,
      fuse candidates denseScores sparseScores topK denseWeight =
        full.take topK ∧
      full.Pairwise (fun a b =>
        tripleLexLe (rankedTriple b) (rankedTriple a)) ∧
      full.Perm ((fuseParticipants candidates denseScores sparseScores).map
        (fuseSpecEntry denseScores sparseScores denseWeight candidates)) := by
  by_cases hcand : candidates = []
  · subst hcand
    refine ⟨[], by simp [fuse], List.Pairwise.nil, ?_⟩
    unfold fuseParticipants
    simp
  · refine ⟨((fuseKeys denseScores sparseScores candidates).filterMap
      (fuseEntryOf candidates denseScores sparseScores denseWeight)).mergeSort
        fuseLe, ?_, ?_, ?_⟩
    · unfold fuse
      rw [if_neg hcand]
    · have hs := @List.sorted_mergeSort _ fuseLe fuseLe_trans fuseLe_total
        ((fuseKeys denseScores sparseScores candidates).filterMap
          (fuseEntryOf candidates denseScores sparseScores denseWeight))
      refine hs.imp ?_
      intro a b hab
      unfold fuseLe at hab
      rwa [decide_eq_true_eq] at hab
    · refine (List.mergeSort_perm _ _).trans ?_
      have hperm := fuseKeys_perm denseScores sparseScores candidates hC hD hS
      have h1 := hperm.filterMap
        (fuseEntryOf candidates denseScores sparseScores denseWeight)
      refine h1.trans ?_
      rw [filterMap_entry_keys candidates denseScores sparseScores denseWeight
        hC hD hS (fuseParticipants candidates denseScores sparseScores)
        (fun c hc => (List.filter_sublist _).mem hc)]

/-- Witness for C5 at a concrete fusion: a single candidate with a dense
score, weight 1. -/
theorem fuse_spec_witness :
    ∃ full : List RankedChunkCandidate,
      fuse [⟨"k1", "d", "n", 0, [], "t".toList⟩] [("k1", (1 : ℚ))] [] 1 1 =
        full.take 1 ∧
      full.Pairwise (fun a b =>
        tripleLexLe (rankedTriple b) (rankedTriple a)) ∧
      full.Perm ((fuseParticipants [⟨"k1", "d", "n", 0, [], "t".toList⟩]
          [("k1", (1 : ℚ))] []).map
        (fuseSpecEntry [("k1", (1 : ℚ))] [] 1
          [⟨"k1", "d", "n", 0, [], "t".toList⟩])) :=
  fuse_spec [⟨"k1", "d", "n", 0, [], "t".toList⟩] [("k1", (1 : ℚ))] [] 1 1
    (by decide) (by decide) (by decide) zero_le_one le_rfl

/-- Witness for C6 at a concrete query and candidate list: a query whose
only term occurs in no candidate produces the empty score map. -/
theorem scoreSparse_spec_witness :
    scoreSparse (fun _ => 1) "zzz".toList
      [⟨"bio", "d", "n", 0, [], "atp atp".toList⟩] 5 = [] :=
  (scoreSparse_spec (fun _ => 1) "zzz".toList
    [⟨"bio", "d", "n", 0, [], "atp atp".toList⟩] 5).2.2.2 (by decide)

/-! ## C2: normalizer idempotence — stage identity lemmas -/

/-- A carriage-return-free text passes the CR-unification scan unchanged. -/
theorem replaceCR_eq_self (l : List Char) (h : ∀ c ∈ l, c ≠ '\r') :
    replaceCR l = l := by
  match l with
  | [] => rfl
  | c :: rest =>
    have hc : c ≠ '\r' := h c (List.mem_cons_self _ _)
    have hrec : replaceCR rest = rest :=
      replaceCR_eq_self rest (fun x hx => h x (List.mem_cons_of_mem _ hx))
    have hstep : replaceCR (c :: rest) = c :: replaceCR rest := by
      rw [replaceCR.eq_def]
      split
      · rename_i hpat; exact List.noConfusion hpat
      · rename_i hpat; injection hpat with h1 _; exact absurd h1 hc
      · rename_i hpat; injection hpat with h1 _; exact absurd h1 hc
      · rename_i hpat; injection hpat with h1 h2; rw [← h1, ← h2]
    rw [hstep, hrec]

/-- A zero-width-free text passes the zero-width strip unchanged. -/
theorem stripZeroWidth_eq_self (l : List Char)
    (h : ∀ c ∈ l, isZeroWidth c = false) : stripZeroWidth l = l :=
  List.filter_eq_self.mpr (fun c hc => by simp [h c hc])

/-- A text without the `(\w)-\n(\w)` pattern passes the un-hyphenation
scan unchanged, for any fuel. -/
theorem unhyphenateAux_eq_self (fuel : Nat) (l : List Char)
    (h : hasHyphenBreak l = false) : unhyphenateAux fuel l = l := by
  match fuel, l with
  | 0, [] => rfl
  | _ + 1, [] => rfl
  | 0, _ :: _ => rfl
  | fuel + 1, [a] => rfl
  | fuel + 1, [a, b] => rfl
  | fuel + 1, [a, b, c] => rfl
  | fuel + 1, a :: b :: c :: d :: rest =>
    rw [hasHyphenBreak] at h
    simp only [Bool.or_eq_false_iff] at h
    have hcond : ¬(isWordChar a = true ∧ b = '-' ∧ c = '\n' ∧
        isWordChar d = true) := by
      rintro ⟨h1, h2, h3, h4⟩
      simp [h1, h2, h3, h4] at h
    have hrec : unhyphenateAux fuel (b :: c :: d :: rest) =
        b :: c :: d :: rest := unhyphenateAux_eq_self fuel _ h.2
    simp only [unhyphenateAux]
    rw [if_neg hcond, hrec]

/-- Every character the un-hyphenation scan emits came from its input. -/
theorem unhyphenateAux_subset (fuel : Nat) (l : List Char) :
    ∀ x ∈ unhyphenateAux fuel l, x ∈ l := by
  match fuel, l with
  | 0, [] => intro x hx; simp [unhyphenateAux] at hx
  | _ + 1, [] => intro x hx; simp [unhyphenateAux] at hx
  | 0, _ :: _ => intro x hx; exact hx
  | fuel + 1, [a] => intro x hx; exact hx
  | fuel + 1, [a, b] => intro x hx; exact hx
  | fuel + 1, [a, b, c] => intro x hx; exact hx
  | fuel + 1, a :: b :: c :: d :: rest =>
    intro x hx
    simp only [unhyphenateAux] at hx
    by_cases hcond : isWordChar a = true ∧ b = '-' ∧ c = '\n' ∧
        isWordChar d = true
    · rw [if_pos hcond] at hx
      simp only [List.mem_cons] at hx ⊢
      rcases hx with hx | hx | hx
      · exact Or.inl hx
      · exact Or.inr (Or.inr (Or.inr (Or.inl hx)))
      · have := unhyphenateAux_subset fuel rest x hx
        simp only [List.mem_cons] at this ⊢
        tauto
    · rw [if_neg hcond] at hx
      simp only [List.mem_cons] at hx ⊢
      rcases hx with hx | hx
      · exact Or.inl hx
      · have := unhyphenateAux_subset fuel (b :: c :: d :: rest) x hx
        simp only [List.mem_cons] at this ⊢
        tauto

/-- Every character the run-collapse scanner emits is either the
replacement character or a non-run character of the input. -/
theorem collapseRunsAux_mem (p : Char → Bool) (rep : Char)
    (l : List Char) : ∀ (b : Bool), ∀ x ∈ (collapseRunsAux p rep b l).1,
      x = rep ∨ (x ∈ l ∧ p x = false) := by
  induction l with
  | nil => intro b x hx; simp [collapseRunsAux] at hx
  | cons c rest ih =>
    intro b x hx
    by_cases hp : p c
    · cases b with
      | true =>
        have e1 : collapseRunsAux p rep true (c :: rest) =
            collapseRunsAux p rep true rest := by
          simp [collapseRunsAux, hp]
        rw [e1] at hx
        rcases ih true x hx with h | ⟨h1, h2⟩
        · exact Or.inl h
        · exact Or.inr ⟨List.mem_cons_of_mem _ h1, h2⟩
      | false =>
        have e2 : collapseRunsAux p rep false (c :: rest) =
            (rep :: (collapseRunsAux p rep true rest).1,
             (collapseRunsAux p rep true rest).2 + 1) := by
          simp [collapseRunsAux, hp]
        rw [e2] at hx
        simp only [List.mem_cons] at hx
        rcases hx with hx | hx
        · exact Or.inl hx
        · rcases ih true x hx with h | ⟨h1, h2⟩
          · exact Or.inl h
          · exact Or.inr ⟨List.mem_cons_of_mem _ h1, h2⟩
    · have e3 : collapseRunsAux p rep b (c :: rest) =
          (c :: (collapseRunsAux p rep false rest).1,
           (collapseRunsAux p rep false rest).2) := by
        simp [collapseRunsAux, hp]
      rw [e3] at hx
      simp only [List.mem_cons] at hx
      rcases hx with hx | hx
      · subst hx
        exact Or.inr ⟨List.mem_cons_self _ _, by simpa using hp⟩
      · rcases ih false x hx with h | ⟨h1, h2⟩
        · exact Or.inl h
        · exact Or.inr ⟨List.mem_cons_of_mem _ h1, h2⟩

/-- `splitChar` never returns the empty list of fields. -/
theorem splitChar_ne_nil (sep : Char) (s : List Char) :
    splitChar sep s ≠ [] := by
  induction s with
  | nil => simp [splitChar]
  | cons c rest ih =>
    by_cases hc : c = sep
    · simp [splitChar, hc]
    · simp only [splitChar, if_neg hc]
      cases h : splitChar sep rest with
      | nil => simp
      | cons line more => simp

/-- Characters of a `splitChar` field come from the input and are never
the separator. -/
theorem splitChar_field_chars (sep : Char) (s : List Char) :
    ∀ line ∈ splitChar sep s, ∀ c ∈ line, c ∈ s ∧ c ≠ sep := by
  induction s with
  | nil =>
    intro line hline c hc
    simp only [splitChar, List.mem_singleton] at hline
    subst hline; exact absurd hc (List.not_mem_nil c)
  | cons a rest ih =>
    intro line hline c hc
    by_cases ha : a = sep
    · simp only [splitChar, if_pos ha, List.mem_cons] at hline
      rcases hline with hline | hline
      · subst hline; exact absurd hc (List.not_mem_nil c)
      · obtain ⟨h1, h2⟩ := ih line hline c hc
        exact ⟨List.mem_cons_of_mem _ h1, h2⟩
    · simp only [splitChar, if_neg ha] at hline
      cases htail : splitChar sep rest with
      | nil => exact absurd htail (splitChar_ne_nil sep rest)
      | cons line0 more =>
        rw [htail] at hline
        simp only [List.mem_cons] at hline
        rcases hline with hline | hline
        · subst hline
          simp only [List.mem_cons] at hc
          rcases hc with hc | hc
          · subst hc; exact ⟨List.mem_cons_self _ _, ha⟩
          · obtain ⟨h1, h2⟩ :=
              ih line0 (htail ▸ List.mem_cons_self _ _) c hc
            exact ⟨List.mem_cons_of_mem _ h1, h2⟩
        · obtain ⟨h1, h2⟩ :=
            ih line (htail ▸ List.mem_cons_of_mem _ hline) c hc
          exact ⟨List.mem_cons_of_mem _ h1, h2⟩

/-- Stripping only removes characters: `pyStrip l` is a sublist of `l`. -/
theorem pyStrip_sublist (l : List Char) : (pyStrip l).Sublist l := by
  have h1 : ((l.dropWhile pyIsSpace).reverse.dropWhile pyIsSpace).Sublist
      (l.dropWhile pyIsSpace).reverse := List.dropWhile_sublist _
  have h2 := h1.reverse
  rw [List.reverse_reverse] at h2
  exact h2.trans (List.dropWhile_sublist _)

/-- Characters of a joined line list are the separator or line characters. -/
theorem joinChar_mem (sep : Char) (L : List (List Char)) :
    ∀ c ∈ joinChar sep L, c = sep ∨ ∃ l ∈ L, c ∈ l := by
  induction L with
  | nil => intro c hc; simp [joinChar] at hc
  | cons l rest ih =>
    intro c hc
    cases rest with
    | nil =>
      exact Or.inr ⟨l, List.mem_cons_self _ _, by simpa [joinChar] using hc⟩
    | cons r rs =>
      rw [show joinChar sep (l :: r :: rs) = l ++ sep :: joinChar sep (r :: rs)
        from rfl] at hc
      rcases List.mem_append.mp hc with hc | hc
      · exact Or.inr ⟨l, List.mem_cons_self _ _, hc⟩
      · simp only [List.mem_cons] at hc
        rcases hc with hc | hc
        · exact Or.inl hc
        · rcases ih c hc with h | ⟨l', h1, h2⟩
          · exact Or.inl h
          · exact Or.inr ⟨l', List.mem_cons_of_mem _ h1, h2⟩

/-- Blank-line compaction only drops lines. -/
theorem compactBlanks_sublist (mbl : Int) (L : List (List Char)) :
    ∀ bc, (compactBlanks mbl L bc).Sublist L := by
  induction L with
  | nil => intro bc; simp [compactBlanks]
  | cons l rest ih =>
    intro bc
    by_cases hl : l ≠ []
    · simpa only [compactBlanks, if_pos hl] using (ih 0).cons₂ l
    · simp only [compactBlanks, if_neg hl]
      by_cases hb : ((bc + 1 : Nat) : Int) ≤ mbl
      · rw [if_pos hb]
        push_neg at hl
        subst hl
        exact (ih (bc + 1)).cons₂ []
      · rw [if_neg hb]
        exact (ih (bc + 1)).cons l

/-- Trimming blank lines only drops lines. -/
theorem trimBlanks_sublist (L : List (List Char)) : (trimBlanks L).Sublist L := by
  have h1 : ((L.dropWhile (fun l => l.isEmpty)).reverse.dropWhile
      (fun l => l.isEmpty)).Sublist (L.dropWhile (fun l => l.isEmpty)).reverse :=
    List.dropWhile_sublist _
  have h2 := h1.reverse
  rw [List.reverse_reverse] at h2
  exact (h2.trans (List.dropWhile_sublist _) :)

/-- The head of a `dropWhile` result never satisfies the predicate. -/
theorem dropWhile_head?_not {α : Type} (p : α → Bool) :
    ∀ (L : List α) (a : α), (L.dropWhile p).head? = some a → p a = false := by
  intro L
  induction L with
  | nil => intro a ha; simp at ha
  | cons x rest ih =>
    intro a ha
    by_cases hx : p x
    · rw [List.dropWhile_cons, if_pos hx] at ha; exact ih a ha
    · rw [List.dropWhile_cons, if_neg hx] at ha
      simp only [List.head?_cons, Option.some_inj] at ha
      rw [← ha]; exact Bool.eq_false_iff.mpr hx

/-- The first character the scanner emits while inside a run does not
satisfy `p` (the rest of the run is swallowed first). -/
theorem collapseRunsAux_true_head (p : Char → Bool) (rep : Char) :
    ∀ l : List Char, ∀ a, ((collapseRunsAux p rep true l).1).head? = some a →
      p a = false := by
  intro l
  induction l with
  | nil => intro a ha; simp [collapseRunsAux] at ha
  | cons c rest ih =>
    intro a ha
    by_cases hp : p c
    · have e1 : collapseRunsAux p rep true (c :: rest) =
          collapseRunsAux p rep true rest := by simp [collapseRunsAux, hp]
      rw [e1] at ha
      exact ih a ha
    · have e3 : collapseRunsAux p rep true (c :: rest) =
          (c :: (collapseRunsAux p rep false rest).1,
           (collapseRunsAux p rep false rest).2) := by
        simp [collapseRunsAux, hp]
      rw [e3] at ha
      simp only [List.head?_cons, Option.some_inj] at ha
      rw [← ha]; exact Bool.eq_false_iff.mpr hp

/-- The collapsed text never contains two adjacent run characters. -/
theorem collapseRunsAux_chain (p : Char → Bool) (rep : Char) :
    ∀ (l : List Char) (b : Bool),
      ((collapseRunsAux p rep b l).1).Chain'
        (fun x y => ¬(p x = true ∧ p y = true)) := by
  intro l
  induction l with
  | nil => intro b; simp [collapseRunsAux]
  | cons c rest ih =>
    intro b
    by_cases hp : p c
    · cases b with
      | true =>
        have e1 : collapseRunsAux p rep true (c :: rest) =
            collapseRunsAux p rep true rest := by simp [collapseRunsAux, hp]
        rw [e1]; exact ih true
      | false =>
        have e2 : collapseRunsAux p rep false (c :: rest) =
            (rep :: (collapseRunsAux p rep true rest).1,
             (collapseRunsAux p rep true rest).2 + 1) := by
          simp [collapseRunsAux, hp]
        rw [e2]
        refine List.chain'_cons'.mpr ⟨?_, ih true⟩
        intro y hy
        have := collapseRunsAux_true_head p rep rest y hy
        simp [this]
    · have e3 : collapseRunsAux p rep b (c :: rest) =
          (c :: (collapseRunsAux p rep false rest).1,
           (collapseRunsAux p rep false rest).2) := by
        simp [collapseRunsAux, hp]
      rw [e3]
      refine List.chain'_cons'.mpr ⟨?_, ih false⟩
      intro y hy
      have hc : p c = false := Bool.eq_false_iff.mpr hp
      simp [hc]

/-- On text whose only run characters are isolated single spaces, the
whitespace-collapse scan is the identity and its count is the number of
spaces. -/
theorem collapseRunsAux_eq_self (l : List Char)
    (h1 : ∀ c ∈ l, isNonNlWs c = true → c = ' ')
    (h2 : wsChainOk l) :
    collapseRunsAux isNonNlWs ' ' false l = (l, l.count ' ') := by
  induction l with
  | nil => simp [collapseRunsAux]
  | cons c rest ih =>
    have h1' : ∀ x ∈ rest, isNonNlWs x = true → x = ' ' :=
      fun x hx => h1 x (List.mem_cons_of_mem _ hx)
    have h2' : wsChainOk rest := List.Chain'.tail h2
    by_cases hc : isNonNlWs c
    · have hsp : c = ' ' := h1 c (List.mem_cons_self _ _) hc
      subst hsp
      have hhead : ∀ y, rest.head? = some y → isNonNlWs y = false := by
        intro y hy
        have hrel := (List.chain'_cons'.mp h2).1 y hy
        rcases Bool.eq_false_or_eq_true (isNonNlWs y) with h | h
        · exact absurd ⟨hc, h⟩ hrel
        · exact h
      have htf : collapseRunsAux isNonNlWs ' ' true rest =
          collapseRunsAux isNonNlWs ' ' false rest := by
        cases rest with
        | nil => rfl
        | cons r rs =>
          have hr : isNonNlWs r = false := hhead r rfl
          simp [collapseRunsAux, hr]
      have e2 : collapseRunsAux isNonNlWs ' ' false (' ' :: rest) =
          (' ' :: (collapseRunsAux isNonNlWs ' ' true rest).1,
           (collapseRunsAux isNonNlWs ' ' true rest).2 + 1) := by
        simp [collapseRunsAux, hc]
      rw [e2, htf, ih h1' h2']
      simp [List.count_cons]
    · have hc' : isNonNlWs c = false := Bool.eq_false_iff.mpr hc
      have e3 : collapseRunsAux isNonNlWs ' ' false (c :: rest) =
          (c :: (collapseRunsAux isNonNlWs ' ' false rest).1,
           (collapseRunsAux isNonNlWs ' ' false rest).2) := by
        simp [collapseRunsAux, hc']
      rw [e3, ih h1' h2']
      have hcs : c ≠ ' ' := by
        rintro rfl
        rw [show isNonNlWs ' ' = true from by decide] at hc'
        exact Bool.noConfusion hc'
      simp [List.count_cons, hcs]

/-- The head of the first `splitChar` field is the head of the input. -/
theorem splitChar_head (sep : Char) (s : List Char) (line : List Char)
    (more : List (List Char)) (h : splitChar sep s = line :: more) :
    line.head? = none ∨ line.head? = s.head? := by
  cases s with
  | nil =>
    rw [show splitChar sep [] = [[]] from rfl] at h
    injection h with h1 _
    left; rw [← h1]; rfl
  | cons a rest =>
    by_cases ha : a = sep
    · rw [show splitChar sep (a :: rest) = [] :: splitChar sep rest from by
        simp [splitChar, ha]] at h
      injection h with h1 _
      left; rw [← h1]; rfl
    · cases htail : splitChar sep rest with
      | nil => exact absurd htail (splitChar_ne_nil sep rest)
      | cons line0 more0 =>
        have e : splitChar sep (a :: rest) = (a :: line0) :: more0 := by
          simp only [splitChar, if_neg ha]
          rw [htail]
        rw [e] at h
        injection h with h1 _
        right; rw [← h1]; rfl

/-- `splitChar` fields inherit chain conditions from the input. -/
theorem splitChar_chain (sep : Char) {R : Char → Char → Prop} :
    ∀ s : List Char, s.Chain' R → ∀ line ∈ splitChar sep s,
      line.Chain' R := by
  intro s
  induction s with
  | nil =>
    intro _ line hline
    rw [show splitChar sep [] = [[]] from rfl] at hline
    simp only [List.mem_singleton] at hline
    subst hline; simp
  | cons a rest ih =>
    intro hch line hline
    have hch' : rest.Chain' R := hch.tail
    by_cases ha : a = sep
    · rw [show splitChar sep (a :: rest) = [] :: splitChar sep rest from by
        simp [splitChar, ha]] at hline
      rcases List.mem_cons.mp hline with h | h
      · subst h; simp
      · exact ih hch' line h
    · cases htail : splitChar sep rest with
      | nil => exact absurd htail (splitChar_ne_nil sep rest)
      | cons line0 more0 =>
        have e : splitChar sep (a :: rest) = (a :: line0) :: more0 := by
          simp only [splitChar, if_neg ha]
          rw [htail]
        rw [e] at hline
        rcases List.mem_cons.mp hline with h | h
        · subst h
          refine List.chain'_cons'.mpr
            ⟨?_, ih hch' line0 (htail ▸ List.mem_cons_self _ _)⟩
          intro y hy
          rcases splitChar_head sep rest line0 more0 htail with hh | hh
          · rw [hh] at hy; exact absurd hy (by simp)
          · rw [hh] at hy
            exact (List.chain'_cons'.mp hch).1 y hy
        · exact ih hch' line (htail ▸ List.mem_cons_of_mem _ h)

/-- Joining with `'\n'` preserves chain conditions that hold across the
newline in both directions. -/
theorem joinChar_chain {R : Char → Char → Prop}
    (hR : ∀ a, R a '\n') (hL : ∀ b, R '\n' b) :
    ∀ L : List (List Char), (∀ l ∈ L, l.Chain' R) →
      (joinChar '\n' L).Chain' R := by
  intro L
  induction L with
  | nil => intro _; simp [joinChar]
  | cons l rest ih =>
    intro h
    cases rest with
    | nil => simpa [joinChar] using h l (List.mem_cons_self _ _)
    | cons r rs =>
      rw [show joinChar '\n' (l :: r :: rs) =
        l ++ '\n' :: joinChar '\n' (r :: rs) from rfl]
      refine List.chain'_append.mpr ⟨h l (List.mem_cons_self _ _), ?_, ?_⟩
      · refine List.chain'_cons'.mpr ⟨fun y _ => hL y, ?_⟩
        exact ih (fun x hx => h x (List.mem_cons_of_mem _ hx))
      · intro x _ y hy
        simp only [List.head?_cons, Option.mem_def, Option.some_inj] at hy
        rw [← hy]; exact hR x

/-- Stripping preserves chain conditions (the result is an infix). -/
theorem chain'_pyStrip {R : Char → Char → Prop} {l : List Char}
    (h : l.Chain' R) : (pyStrip l).Chain' R := by
  have h1 : (l.dropWhile pyIsSpace).Chain' R :=
    h.suffix (List.dropWhile_suffix _)
  refine h1.prefix ?_
  have h2 := List.reverse_prefix.mpr
    (@List.dropWhile_suffix _ (l.dropWhile pyIsSpace).reverse pyIsSpace)
  rw [List.reverse_reverse] at h2
  exact h2

/-- Trailing-blank trimming keeps a prefix of the line list. -/
theorem trimBlanksRight_prefix (L : List (List Char)) :
    trimBlanksRight L <+: L := by
  have h := List.reverse_prefix.mpr
    (@List.dropWhile_suffix _ L.reverse (fun l => l.isEmpty))
  rw [List.reverse_reverse] at h
  exact h

/-- A smaller running blank count makes `okBlank` easier to satisfy. -/
theorem okBlank_mono (mbl : Int) : ∀ (L : List (List Char)) (bc bc' : Nat),
    bc' ≤ bc → okBlank mbl bc L → okBlank mbl bc' L := by
  intro L
  induction L with
  | nil => intro bc bc' _ _; trivial
  | cons l rest ih =>
    intro bc bc' hle h
    simp only [okBlank] at h ⊢
    rcases h with ⟨hne, hrest⟩ | ⟨hnil, hb, hrest⟩
    · exact Or.inl ⟨hne, hrest⟩
    · refine Or.inr ⟨hnil, ?_, ih _ _ (Nat.succ_le_succ hle) hrest⟩
      calc ((bc' + 1 : Nat) : Int) ≤ ((bc + 1 : Nat) : Int) := by
            exact_mod_cast Nat.succ_le_succ hle
        _ ≤ mbl := hb

/-- Blank-line compaction establishes the blank-run bound. -/
theorem okBlank_compactBlanks (mbl : Int) :
    ∀ (L : List (List Char)) (bc : Nat),
      okBlank mbl bc (compactBlanks mbl L bc) := by
  intro L
  induction L with
  | nil => intro bc; simp [compactBlanks, okBlank]
  | cons l rest ih =>
    intro bc
    by_cases hl : l ≠ []
    · simp only [compactBlanks, if_pos hl, okBlank]
      exact Or.inl ⟨hl, ih 0⟩
    · push_neg at hl
      subst hl
      by_cases hb : ((bc + 1 : Nat) : Int) ≤ mbl
      · simp only [compactBlanks, if_neg (by simp : ¬([] : List Char) ≠ []),
          if_pos hb, okBlank]
        exact Or.inr ⟨trivial, hb, ih (bc + 1)⟩
      · simp only [compactBlanks, if_neg (by simp : ¬([] : List Char) ≠ []),
          if_neg hb]
        exact okBlank_mono mbl _ _ _ (Nat.le_succ bc) (ih (bc + 1))

/-- `okBlank` restricts to prefixes. -/
theorem okBlank_append_left (mbl : Int) :
    ∀ (L₁ L₂ : List (List Char)) (bc : Nat),
      okBlank mbl bc (L₁ ++ L₂) → okBlank mbl bc L₁ := by
  intro L₁
  induction L₁ with
  | nil => intro L₂ bc _; trivial
  | cons l rest ih =>
    intro L₂ bc h
    simp only [List.cons_append, okBlank] at h ⊢
    rcases h with ⟨hne, hrest⟩ | ⟨hnil, hb, hrest⟩
    · exact Or.inl ⟨hne, ih L₂ 0 hrest⟩
    · exact Or.inr ⟨hnil, hb, ih L₂ (bc + 1) hrest⟩

/-- `okBlank` survives dropping leading blank lines. -/
theorem okBlank_dropWhile (mbl : Int) :
    ∀ L : List (List Char), okBlank mbl 0 L →
      okBlank mbl 0 (L.dropWhile (fun l => l.isEmpty)) := by
  intro L
  induction L with
  | nil => intro _; trivial
  | cons l rest ih =>
    intro h
    by_cases hl : l.isEmpty
    · rw [List.dropWhile_cons, if_pos hl]
      have hnil : l = [] := by simpa using hl
      simp only [okBlank] at h
      rcases h with ⟨hne, _⟩ | ⟨_, _, hrest⟩
      · exact absurd hnil hne
      · exact ih (okBlank_mono mbl rest 1 0 (Nat.zero_le 1) hrest)
    · rw [List.dropWhile_cons, if_neg hl]
      exact h

/-- When the blank-run bound already holds, compaction is the identity. -/
theorem compactBlanks_eq_self (mbl : Int) :
    ∀ (L : List (List Char)) (bc : Nat),
      okBlank mbl bc L → compactBlanks mbl L bc = L := by
  intro L
  induction L with
  | nil => intro bc _; rfl
  | cons l rest ih =>
    intro bc h
    simp only [okBlank] at h
    rcases h with ⟨hne, hrest⟩ | ⟨hnil, hb, hrest⟩
    · simp only [compactBlanks, if_pos hne]
      rw [ih 0 hrest]
    · subst hnil
      simp only [compactBlanks, if_neg (by simp : ¬([] : List Char) ≠ []),
        if_pos hb]
      rw [ih _ hrest]

/-- A list is empty exactly when its reverse is. -/
theorem isEmpty_reverse_eq {α : Type} (l : List α) :
    l.reverse.isEmpty = l.isEmpty := by
  cases l with
  | nil => rfl
  | cons a r =>
    have h : r.reverse ++ [a] ≠ [] := by simp
    cases hh : r.reverse ++ [a] with
    | nil => exact absurd hh h
    | cons x xs => simp [List.isEmpty, List.reverse_cons, hh]

/-- If `dropWhile` keeps a cons intact, its head fails the predicate. -/
theorem dropWhile_eq_self_head {p : Char → Bool} {c : Char} {l : List Char}
    (h : (c :: l).dropWhile p = c :: l) : p c = false := by
  by_cases hc : p c
  · rw [List.dropWhile_cons, if_pos hc] at h
    have hle : (l.dropWhile p).length ≤ l.length :=
      (List.dropWhile_sublist _).length_le
    rw [h] at hle
    simp at hle
  · exact Bool.eq_false_iff.mpr hc

/-- A stripped list stays stripped after reversal. -/
theorem pyStrip_reverse {l : List Char} (h : pyStrip l = l) :
    pyStrip l.reverse = l.reverse := by
  obtain ⟨h1, h2⟩ := pyStrip_parts h
  refine pyStrip_eq_self_of h2 ?_
  rw [List.reverse_reverse]
  exact h1

/-- Splitting a separator-free list returns it as the single field. -/
theorem splitChar_no_sep (sep : Char) : ∀ l : List Char, sep ∉ l →
    splitChar sep l = [l] := by
  intro l
  induction l with
  | nil => intro _; rfl
  | cons c rest ih =>
    intro h
    have hc : c ≠ sep := fun hc => h (hc ▸ List.mem_cons_self _ _)
    have hrest : sep ∉ rest := fun hr => h (List.mem_cons_of_mem _ hr)
    simp only [splitChar, if_neg hc]
    rw [ih hrest]

/-- Splitting after a separator-free prefix peels off one field. -/
theorem splitChar_append_sep (sep : Char) :
    ∀ (l s : List Char), sep ∉ l →
      splitChar sep (l ++ sep :: s) = l :: splitChar sep s := by
  intro l
  induction l with
  | nil =>
    intro s _
    simp [splitChar]
  | cons c rest ih =>
    intro s h
    have hc : c ≠ sep := fun hc => h (hc ▸ List.mem_cons_self _ _)
    have hrest : sep ∉ rest := fun hr => h (List.mem_cons_of_mem _ hr)
    rw [List.cons_append]
    simp only [splitChar, if_neg hc]
    rw [ih s hrest]

/-- Splitting undoes joining when the fields are separator-free. -/
theorem splitChar_joinChar (sep : Char) :
    ∀ L : List (List Char), L ≠ [] → (∀ l ∈ L, sep ∉ l) →
      splitChar sep (joinChar sep L) = L := by
  intro L
  induction L with
  | nil => intro h _; exact absurd rfl h
  | cons l rest ih =>
    intro _ h
    cases rest with
    | nil =>
      rw [show joinChar sep [l] = l from rfl]
      rw [splitChar_no_sep sep l (h l (List.mem_cons_self _ _))]
    | cons r rs =>
      rw [show joinChar sep (l :: r :: rs) =
        l ++ sep :: joinChar sep (r :: rs) from rfl]
      rw [splitChar_append_sep sep l _ (h l (List.mem_cons_self _ _))]
      rw [ih (by simp) (fun x hx => h x (List.mem_cons_of_mem _ hx))]

/-- Joining after appending a final field. -/
theorem joinChar_append_single (sep : Char) :
    ∀ (X : List (List Char)) (y : List Char), X ≠ [] →
      joinChar sep (X ++ [y]) = joinChar sep X ++ sep :: y := by
  intro X
  induction X with
  | nil => intro y h; exact absurd rfl h
  | cons x xs ih =>
    intro y _
    cases xs with
    | nil => rfl
    | cons x₂ rest =>
      rw [List.cons_append]
      rw [show joinChar sep (x :: ((x₂ :: rest) ++ [y])) =
        x ++ sep :: joinChar sep ((x₂ :: rest) ++ [y]) from rfl]
      rw [ih y (by simp)]
      rw [show joinChar sep (x :: x₂ :: rest) =
        x ++ sep :: joinChar sep (x₂ :: rest) from rfl]
      simp [List.append_assoc]

/-- Reversing a joined list joins the reversed lines in reverse order. -/
theorem joinChar_reverse (sep : Char) :
    ∀ L : List (List Char), (joinChar sep L).reverse =
      joinChar sep ((L.map List.reverse).reverse) := by
  intro L
  induction L with
  | nil => rfl
  | cons l rest ih =>
    cases rest with
    | nil => rfl
    | cons r rs =>
      rw [show joinChar sep (l :: r :: rs) =
        l ++ sep :: joinChar sep (r :: rs) from rfl]
      rw [List.reverse_append, List.reverse_cons, ih]
      rw [show ((l :: r :: rs).map List.reverse).reverse =
        ((r :: rs).map List.reverse).reverse ++ [l.reverse] from by simp]
      rw [joinChar_append_single sep _ _ (by simp)]
      rw [List.append_assoc, List.singleton_append]

/-- Leading-whitespace stripping of a join of stripped lines drops exactly
the leading blank lines. -/
theorem dropWhile_joinChar : ∀ L : List (List Char),
    (∀ l ∈ L, pyStrip l = l) →
    (joinChar '\n' L).dropWhile pyIsSpace =
      joinChar '\n' (L.dropWhile (fun l => l.isEmpty)) := by
  intro L
  induction L with
  | nil => intro _; rfl
  | cons l rest ih =>
    intro h
    have hrest := fun x hx => h x (List.mem_cons_of_mem _ hx)
    by_cases hl : l.isEmpty
    · have hnil : l = [] := by simpa using hl
      subst hnil
      have hR : (([] : List Char) :: rest).dropWhile (fun l => l.isEmpty) =
          rest.dropWhile (fun l => l.isEmpty) := by
        rw [List.dropWhile_cons]; simp
      rw [hR]
      cases rest with
      | nil => rfl
      | cons r rs =>
        rw [show joinChar '\n' ([] :: r :: rs) =
          '\n' :: joinChar '\n' (r :: rs) from rfl]
        rw [List.dropWhile_cons, if_pos (by decide : pyIsSpace '\n' = true)]
        exact ih hrest
    · have hR : (l :: rest).dropWhile (fun l => l.isEmpty) = l :: rest := by
        rw [List.dropWhile_cons, if_neg hl]
      rw [hR]
      obtain ⟨c, l', rfl⟩ : ∃ c l', l = c :: l' := by
        cases l with
        | nil => simp at hl
        | cons c l' => exact ⟨_, _, rfl⟩
      have hc : pyIsSpace c = false := dropWhile_eq_self_head
        (pyStrip_parts (h _ (List.mem_cons_self _ _))).1
      cases rest with
      | nil =>
        rw [show joinChar '\n' [c :: l'] = c :: l' from rfl]
        rw [List.dropWhile_cons, if_neg (by simp [hc])]
      | cons r rs =>
        rw [show joinChar '\n' ((c :: l') :: r :: rs) =
          (c :: l') ++ '\n' :: joinChar '\n' (r :: rs) from rfl]
        rw [List.cons_append, List.dropWhile_cons, if_neg (by simp [hc])]

/-- Stripping a join of stripped lines trims exactly the leading and
trailing blank lines. -/
theorem pyStrip_joinChar (L : List (List Char))
    (h : ∀ l ∈ L, pyStrip l = l) :
    pyStrip (joinChar '\n' L) = joinChar '\n' (trimBlanks L) := by
  have hL1 : ∀ l ∈ L.dropWhile (fun l => l.isEmpty), pyStrip l = l :=
    fun l hl => h l ((List.dropWhile_sublist _).subset hl)
  have s1 : (joinChar '\n' L).dropWhile pyIsSpace =
      joinChar '\n' (L.dropWhile (fun l => l.isEmpty)) :=
    dropWhile_joinChar L h
  show dropRightWhile pyIsSpace ((joinChar '\n' L).dropWhile pyIsSpace) = _
  rw [s1]
  show ((joinChar '\n' (L.dropWhile (fun l => l.isEmpty))).reverse.dropWhile
    pyIsSpace).reverse = _
  rw [joinChar_reverse]
  have hrev : ∀ l ∈ (((L.dropWhile (fun l => l.isEmpty)).map
      List.reverse).reverse), pyStrip l = l := by
    intro l hl
    rw [List.mem_reverse] at hl
    obtain ⟨l₀, hl₀, rfl⟩ := List.mem_map.mp hl
    exact pyStrip_reverse (hL1 l₀ hl₀)
  rw [dropWhile_joinChar _ hrev]
  have s4 : (((L.dropWhile (fun l => l.isEmpty)).map
        List.reverse).reverse).dropWhile (fun l => l.isEmpty) =
      ((L.dropWhile (fun l => l.isEmpty)).reverse.dropWhile
        (fun l => l.isEmpty)).map List.reverse := by
    rw [← List.map_reverse, List.dropWhile_map]
    have hfun : ((fun (l : List Char) => l.isEmpty) ∘ List.reverse) =
        (fun (l : List Char) => l.isEmpty) := by
      funext x
      exact isEmpty_reverse_eq x
    rw [hfun]
  rw [s4, joinChar_reverse, List.map_map]
  have s5 : (((L.dropWhile (fun l => l.isEmpty)).reverse.dropWhile
        (fun l => l.isEmpty)).map (List.reverse ∘ List.reverse)) =
      (L.dropWhile (fun l => l.isEmpty)).reverse.dropWhile
        (fun l => l.isEmpty) := by
    simp
  rw [s5]
  rfl

/-- `dropWhile` is idempotent (generic element type). -/
theorem dropWhile_idem_gen {α : Type} (p : α → Bool) (l : List α) :
    (l.dropWhile p).dropWhile p = l.dropWhile p := by
  induction l with
  | nil => rfl
  | cons c rest ih =>
    by_cases hc : p c
    · simp [List.dropWhile_cons, hc, ih]
    · simp [List.dropWhile_cons, hc]

/-- Trimming blank lines is idempotent. -/
theorem trimBlanks_idem (L : List (List Char)) :
    trimBlanks (trimBlanks L) = trimBlanks L := by
  cases hM : trimBlanks L with
  | nil => rfl
  | cons m M' =>
    have hrev : (trimBlanks L).reverse =
        (L.dropWhile (fun l => l.isEmpty)).reverse.dropWhile
          (fun l => l.isEmpty) := by
      show (trimBlanksRight (L.dropWhile (fun l => l.isEmpty))).reverse = _
      unfold trimBlanksRight
      rw [List.reverse_reverse]
    have hhead : (m :: M').head? =
        ((L.dropWhile (fun l => l.isEmpty)).head?) := by
      obtain ⟨tl, htl⟩ :=
        trimBlanksRight_prefix (L.dropWhile (fun l => l.isEmpty))
      rw [show trimBlanksRight (L.dropWhile (fun l => l.isEmpty)) =
        trimBlanks L from rfl, hM] at htl
      rw [← htl]
      rfl
    have hm : (fun (l : List Char) => l.isEmpty) m = false := by
      apply dropWhile_head?_not (fun (l : List Char) => l.isEmpty) L
      rw [← hhead]
      rfl
    have h1 : (m :: M').dropWhile (fun l => l.isEmpty) = m :: M' := by
      rw [List.dropWhile_cons, if_neg (by simp [hm])]
    show trimBlanksRight ((m :: M').dropWhile (fun l => l.isEmpty)) = m :: M'
    rw [h1]
    unfold trimBlanksRight
    have h2 : (m :: M').reverse.dropWhile (fun l => l.isEmpty) =
        (m :: M').reverse := by
      rw [show (m :: M') = trimBlanks L from hM.symm, hrev,
        dropWhile_idem_gen]
    rw [h2, List.reverse_reverse]

/-- `okBlank` survives trimming blank lines at both ends. -/
theorem okBlank_trimBlanks (mbl : Int) (L : List (List Char))
    (h : okBlank mbl 0 L) : okBlank mbl 0 (trimBlanks L) := by
  have h1 := okBlank_dropWhile mbl L h
  obtain ⟨tl, htl⟩ := trimBlanksRight_prefix (L.dropWhile (fun l => l.isEmpty))
  exact okBlank_append_left mbl _ tl 0 (by
    show okBlank mbl 0
      (trimBlanksRight (L.dropWhile (fun l => l.isEmpty)) ++ tl)
    rw [htl]; exact h1)

/-- Every character of the collapsed stage-4 text is a space or a
non-whitespace, non-zero-width character. -/
theorem normStage4_chars (t0 : List Char) :
    ∀ c ∈ (normStage4 t0).1,
      c = ' ' ∨ (isZeroWidth c = false ∧ isNonNlWs c = false) := by
  intro c hc
  rcases collapseRunsAux_mem isNonNlWs ' '
      (unhyphenate (stripZeroWidth (replaceCR t0))) false c hc with h | ⟨h1, h2⟩
  · exact Or.inl h
  · have h3 : c ∈ stripZeroWidth (replaceCR t0) :=
      unhyphenateAux_subset _ _ c h1
    have h4 : isZeroWidth c = false := by
      have := (List.mem_filter.mp h3).2
      simpa using this
    exact Or.inr ⟨h4, h2⟩

/-- Characters of the stripped split lines come from the stage-4 text and
are never newlines. -/
theorem normLines_mem_chars (t0 : List Char) :
    ∀ l ∈ normLines t0, ∀ c ∈ l, c ∈ (normStage4 t0).1 ∧ c ≠ '\n' := by
  intro l hl c hc
  obtain ⟨f, hf, rfl⟩ := List.mem_map.mp hl
  have hcf : c ∈ f := (pyStrip_sublist f).subset hc
  exact splitChar_field_chars '\n' _ f hf c hcf

/-- Lines surviving the removal pass are split lines. -/
theorem normRemovedLines_subset (t0 : List Char) (flag : Bool) :
    ∀ l ∈ normRemovedLines t0 flag, l ∈ normLines t0 := by
  intro l hl
  cases flag with
  | false => exact hl
  | true => exact (List.mem_filter.mp hl).1

/-- Lines surviving the removal pass are stripped and newline-free. -/
theorem normRemovedLines_stripped (t0 : List Char) (flag : Bool) :
    ∀ l ∈ normRemovedLines t0 flag, pyStrip l = l ∧ '\n' ∉ l := by
  intro l hl
  have hl' := normRemovedLines_subset t0 flag l hl
  obtain ⟨f, hf, rfl⟩ := List.mem_map.mp hl'
  refine ⟨pyStrip_idem f, ?_⟩
  intro hnl
  exact (normLines_mem_chars t0 (pyStrip f) hl' '\n' hnl).2 rfl

/-- Split lines never contain two adjacent non-newline whitespace
characters. -/
theorem normLines_chain (t0 : List Char) :
    ∀ l ∈ normLines t0, wsChainOk l := by
  intro l hl
  obtain ⟨f, hf, rfl⟩ := List.mem_map.mp hl
  have hs4 : wsChainOk (normStage4 t0).1 :=
    collapseRunsAux_chain isNonNlWs ' ' _ false
  exact chain'_pyStrip (splitChar_chain '\n' _ hs4 f hf)

/-- The normalizer's output text is the joined, blank-trimmed compaction
of the surviving lines. -/
theorem normalize_text_eq_join (t0 : List Char) (mbl : Int) (flag : Bool) :
    (normalize t0 mbl flag).normalized_text =
      joinChar '\n'
        (trimBlanks (compactBlanks mbl (normRemovedLines t0 flag) 0)) := by
  have hC : ∀ l ∈ compactBlanks mbl (normRemovedLines t0 flag) 0,
      pyStrip l = l :=
    fun l hl => (normRemovedLines_stripped t0 flag l
      ((compactBlanks_sublist mbl _ 0).subset hl)).1
  exact pyStrip_joinChar _ hC

/-- The normalizer's output text is free of carriage returns and
zero-width characters, and its only non-newline whitespace is the plain
space. -/
theorem normalize_charsClean (t0 : List Char) (mbl : Int) (flag : Bool) :
    charsClean (normalize t0 mbl flag).normalized_text := by
  intro c hc
  have hc1 : c ∈ joinChar '\n'
      (compactBlanks mbl (normRemovedLines t0 flag) 0) :=
    (pyStrip_sublist _).subset hc
  rcases joinChar_mem '\n' _ c hc1 with h | ⟨l, hl, hcl⟩
  · subst h
    refine ⟨by decide, by decide, ?_⟩
    intro h
    rw [show isNonNlWs '\n' = false from by decide] at h
    exact Bool.noConfusion h
  · have hlR := (compactBlanks_sublist mbl _ 0).subset hl
    have hlL := normRemovedLines_subset t0 flag l hlR
    have hs4 := (normLines_mem_chars t0 l hlL c hcl).1
    rcases normStage4_chars t0 c hs4 with h | ⟨h1, h2⟩
    · subst h
      exact ⟨by decide, by decide, fun _ => rfl⟩
    · refine ⟨?_, h1, ?_⟩
      · rintro rfl
        rw [show isNonNlWs '\x0d' = true from by decide] at h2
        exact Bool.noConfusion h2
      · intro h
        rw [h2] at h
        exact absurd h Bool.false_ne_true

/-- The normalizer's output text never contains two adjacent non-newline
whitespace characters. -/
theorem normalize_wsChainOk (t0 : List Char) (mbl : Int) (flag : Bool) :
    wsChainOk (normalize t0 mbl flag).normalized_text := by
  have hR : ∀ a, ¬(isNonNlWs a = true ∧ isNonNlWs '\n' = true) := by
    rintro a ⟨_, h⟩
    rw [show isNonNlWs '\n' = false from by decide] at h
    exact Bool.noConfusion h
  have hL : ∀ b, ¬(isNonNlWs '\n' = true ∧ isNonNlWs b = true) := by
    rintro b ⟨h, _⟩
    rw [show isNonNlWs '\n' = false from by decide] at h
    exact Bool.noConfusion h
  refine chain'_pyStrip (joinChar_chain hR hL _ ?_)
  intro l hl
  have hlL := normRemovedLines_subset t0 flag l
    ((compactBlanks_sublist mbl _ 0).subset hl)
  exact normLines_chain t0 l hlL

/-- On clean, collapsed, hyphen-break-free text, stages 1–4 are the
identity and count exactly the spaces. -/
theorem normStage4_eq_self (t : List Char) (h1 : charsClean t)
    (h2 : wsChainOk t) (h3 : hasHyphenBreak t = false) :
    normStage4 t = (t, t.count ' ') := by
  unfold normStage4
  rw [replaceCR_eq_self t (fun c hc => (h1 c hc).1)]
  rw [stripZeroWidth_eq_self t (fun c hc => (h1 c hc).2.1)]
  rw [show unhyphenate t = t from unhyphenateAux_eq_self t.length t h3]
  exact collapseRunsAux_eq_self t (fun c hc => (h1 c hc).2.2) h2

/-- Splitting clean text recovers its (stripped, newline-free) lines. -/
theorem normLines_of_clean (t : List Char)
    (h4 : normStage4 t = (t, t.count ' ')) (M : List (List Char))
    (hM : t = joinChar '\n' M) (hMne : M ≠ [])
    (hMl : ∀ l ∈ M, pyStrip l = l ∧ '\n' ∉ l) :
    normLines t = M := by
  unfold normLines
  rw [h4]
  show (splitChar '\n' t).map pyStrip = M
  rw [hM, splitChar_joinChar '\n' M hMne (fun l hl => (hMl l hl).2)]
  rw [List.map_congr_left (fun l hl => (hMl l hl).1)]
  simp

/-- Lines that already survived one removal pass are never repeated three
times again, so the second pass removes nothing. -/
theorem normRemovedLines_pass2 (t t0 : List Char) (flag : Bool)
    (hl : (normLines t).Sublist (normRemovedLines t0 flag)) :
    normRemovedLines t flag = normLines t ∧ normRemovedCount t flag = 0 := by
  cases flag with
  | false => exact ⟨rfl, rfl⟩
  | true =>
    have key : ∀ l ∈ normLines t, normIsRepeated t l = false := by
      intro l hml
      have hmem : l ∈ (normLines t0).filter
          (fun l => !normIsRepeated t0 l) := hl.subset hml
      have hnotrep : normIsRepeated t0 l = false := by
        have := (List.mem_filter.mp hmem).2
        simpa using this
      have hcnt0 : ¬(3 ≤ ((normLines t0).filter
          (fun l' => l' ≠ [] ∧ l'.length ≤ 100)).count l) :=
        decide_eq_false_iff_not.mp hnotrep
      have hsub : ((normLines t).filter
            (fun l' => l' ≠ [] ∧ l'.length ≤ 100)).Sublist
          ((normLines t0).filter (fun l' => l' ≠ [] ∧ l'.length ≤ 100)) :=
        (hl.trans (List.filter_sublist _)).filter _
      have hle := hsub.count_le l
      apply decide_eq_false_iff_not.mpr
      omega
    refine ⟨List.filter_eq_self.mpr (fun l hml => by simp [key l hml]), ?_⟩
    show ((normLines t).filter (normIsRepeated t)).length = 0
    rw [List.filter_eq_nil_iff.mpr (fun l hml => by simp [key l hml])]
    rfl

/-- Normalizing the empty text is a fixed point with zero counts. -/
theorem normalize_nil (mbl : Int) (flag : Bool) :
    normalize [] mbl flag = ⟨[], 0, 0⟩ := by
  have hlines : normLines [] = [[]] := rfl
  have hR : normRemovedLines [] flag = [[]] := by
    cases flag with
    | false => exact hlines
    | true =>
      show (normLines []).filter (fun l => !normIsRepeated [] l) = [[]]
      rw [hlines]
      rfl
  have hcnt : normRemovedCount [] flag = 0 := by
    cases flag with
    | false => rfl
    | true =>
      show ((normLines []).filter (normIsRepeated [])).length = 0
      rw [hlines]
      rfl
  show (⟨pyStrip (joinChar '\n'
      (compactBlanks mbl (normRemovedLines [] flag) 0)),
    normRemovedCount [] flag, (normStage4 []).2⟩ : NormalizationResult) =
    ⟨[], 0, 0⟩
  rw [hR, hcnt]
  by_cases hb : (1 : Int) ≤ mbl
  · rw [show compactBlanks mbl [[]] 0 = [[]] from by
      simp [compactBlanks, hb]]
    rfl
  · rw [show compactBlanks mbl [[]] 0 = [] from by
      simp [compactBlanks, hb]]
    rfl

/-- Counterexample to C2 as stated: normalizing `"ab-\n\ncd e"` with
`max_blank_lines = 0` and the repeated-line pass off yields `"ab-\ncd e"`;
re-normalizing that output un-hyphenates the line break created by
blank-line removal, so the text changes, and the collapsed-whitespace
count is 1, not 0 (each single space is a collapsed run). -/
theorem normalize_idempotent_counterexample :
    (normalize ("ab-\n\ncd e".toList) 0 false).normalized_text =
      "ab-\ncd e".toList ∧
    normalize ("ab-\ncd e".toList) 0 false =
      ⟨"abcd e".toList, 0, 1⟩ ∧
    "abcd e".toList ≠ "ab-\ncd e".toList := by decide

/-- **C2** (corrected). For every input text, `max_blank_lines`, and
repeated-line flag, if the normalizer's output contains no `(\w)-\n(\w)`
hyphen break (the one way a first pass can manufacture new work for a
second), then re-normalizing the output with the same arguments returns
the identical text and `removed_repeated_line_count = 0`; the
`collapsed_whitespace_count`, however, equals the number of spaces in the
text (Python's `re.subn(r"[^\S\n]+", " ")` counts every run, including
single spaces), not 0 as the spec claims. -/
theorem normalize_idempotent_amended (t0 : List Char) (mbl : Int)
    (flag : Bool)
    (hnb : hasHyphenBreak (normalize t0 mbl flag).normalized_text = false) :
    normalize (normalize t0 mbl flag).normalized_text mbl flag =
      ⟨(normalize t0 mbl flag).normalized_text, 0,
        ((normalize t0 mbl flag).normalized_text).count ' '⟩ := by
  have htM : (normalize t0 mbl flag).normalized_text =
      joinChar '\n'
        (trimBlanks (compactBlanks mbl (normRemovedLines t0 flag) 0)) :=
    normalize_text_eq_join t0 mbl flag
  by_cases hMe :
      trimBlanks (compactBlanks mbl (normRemovedLines t0 flag) 0) = []
  · have ht0 : (normalize t0 mbl flag).normalized_text = [] := by
      rw [htM, hMe]; rfl
    rw [ht0, normalize_nil mbl flag]
    rfl
  · set M := trimBlanks (compactBlanks mbl (normRemovedLines t0 flag) 0)
      with hMdef
    have hMsubC : M.Sublist
        (compactBlanks mbl (normRemovedLines t0 flag) 0) := by
      rw [hMdef]; exact trimBlanks_sublist _
    have hMsubR : M.Sublist (normRemovedLines t0 flag) :=
      hMsubC.trans (compactBlanks_sublist mbl _ 0)
    have hMl : ∀ l ∈ M, pyStrip l = l ∧ '\n' ∉ l :=
      fun l hl => normRemovedLines_stripped t0 flag l (hMsubR.subset hl)
    set t := (normalize t0 mbl flag).normalized_text with htdef
    have hclean : charsClean t := normalize_charsClean t0 mbl flag
    have hchain : wsChainOk t := normalize_wsChainOk t0 mbl flag
    have h4 : normStage4 t = (t, t.count ' ') :=
      normStage4_eq_self t hclean hchain hnb
    have hlines : normLines t = M := normLines_of_clean t h4 M htM hMe hMl
    have hRL := normRemovedLines_pass2 t t0 flag
      (by rw [hlines]; exact hMsubR)
    have hok : okBlank mbl 0 M := by
      rw [hMdef]
      exact okBlank_trimBlanks mbl _ (okBlank_compactBlanks mbl _ 0)
    have hcomp : compactBlanks mbl M 0 = M :=
      compactBlanks_eq_self mbl M 0 hok
    have htrim : trimBlanks M = M := by
      rw [hMdef]; exact trimBlanks_idem _
    have hstrip : pyStrip (joinChar '\n' M) = joinChar '\n' M := by
      rw [pyStrip_joinChar M (fun l hl => (hMl l hl).1), htrim]
    show (⟨pyStrip (joinChar '\n'
        (compactBlanks mbl (normRemovedLines t flag) 0)),
      normRemovedCount t flag, (normStage4 t).2⟩ : NormalizationResult) =
      ⟨t, 0, t.count ' '⟩
    rw [hRL.1, hlines, hcomp, hstrip, ← htM, hRL.2, h4]

/-- Witness for C2 at the text `"a b"`: its normalization has no hyphen
break, and re-normalizing returns it unchanged with zero removed lines
and a collapsed count equal to its single space. -/
theorem normalize_idempotent_amended_witness :
    hasHyphenBreak (normalize "a b".toList 0 false).normalized_text =
      false ∧
    normalize (normalize "a b".toList 0 false).normalized_text 0 false =
      ⟨(normalize "a b".toList 0 false).normalized_text, 0,
        ((normalize "a b".toList 0 false).normalized_text).count ' '⟩ :=
  ⟨by decide, normalize_idempotent_amended "a b".toList 0 false (by decide)⟩

end RagSuite
